import Mathlib

/-!
Verification of the ARM NEON 4-bit quantized GEMM kernel family
(`sqnbitgemm_kernel_neon.cpp`) against its design specification.

Modelling conventions.

* Machine integers (`size_t`, byte indices) are `Nat`; `int8_t`/`int32_t`
  values are `Int`.  Bytes are `Nat` values; nibble extraction is made total
  with `% 16`, which agrees with the C++ `& 0x0F` / `>> 4` on genuine bytes
  (values below 256).
* `float` arithmetic is embedded as exact arithmetic over `ℚ`.  Under this
  idealization SIMD lanes and multiple accumulators collapse to plain finite
  sums: a `float32x4_t` accumulator that is horizontally added at the end
  contributes exactly the sum of all the products fed into its lanes, so a
  vectorized loop is embedded as the corresponding `Finset.range` sum with
  loop bounds and address arithmetic taken verbatim from the source.
* Memory buffers are total functions from byte offsets: pointer arithmetic
  in the source becomes explicit index arithmetic in the embedding, so
  out-of-bounds accesses performed by the source are visible as reads at
  offsets outside the logical data region.
* The int32 dot-product accumulators of the int8 kernels cannot overflow
  (at most 32 products of an int8 with a value in [-15, 15] per lane per
  block), so they are embedded as exact `Int` sums.
-/

namespace SQNBitGemmNeon

/-- Source `MlasDivRoundup(n, d) = (n + d - 1) / d`, the rounded-up quotient. -/
def divRoundup (n d : Nat) : Nat := (n + d - 1) / d

/-- Low nibble of a byte: `b & 0x0F`. -/
def nibLo (b : Nat) : Nat := b % 16

/-- High nibble of a byte: `b >> 4` (total via `% 16`; equal on bytes). -/
def nibHi (b : Nat) : Nat := b / 16 % 16

/-- Modelled from the spec: `MlasQNBitBlkDataSizeInBytes(4, BlkLen)`, the
number of data bytes of one 4-bit quantized block (`BlkLen*4/8`); the header
declaring it is not part of the sources, the spec gives the formula. -/
def blkDataSize (BlkLen : Nat) : Nat := BlkLen * 4 / 8

/-- Modelled from the spec: `MlasQNBitZeroPointsForBlksSizeInBytes<4>`, the
byte count of a column's zero-point array; two 4-bit zero points share a
byte, so `ceil(BlockCountK / 2)` bytes. -/
def zpBytesSize (BlockCountK : Nat) : Nat := divRoundup BlockCountK 2

/-- Modelled from the spec: `Q8BlkSize(BlkLen)`, the byte size of one
quantized-activation block: a float32 scale (4 bytes) followed by `BlkLen`
int8 codes. -/
def q8BlkSize (BlkLen : Nat) : Nat := 4 + BlkLen

/-- Zero point of block `blkIdx` per the packed zero-point convention:
byte `blkIdx / 2`, low nibble for even `blkIdx`, high nibble for odd. -/
def zpNib (zpBytes : Nat → Nat) (blkIdx : Nat) : Nat :=
  if blkIdx % 2 = 0 then nibLo (zpBytes (blkIdx / 2)) else nibHi (zpBytes (blkIdx / 2))

/-- The two compute modes of the dispatch table. -/
inductive ComputeType where
  | compFp32 : ComputeType
  | compInt8 : ComputeType
deriving DecidableEq

section TilingLemmas

variable {M : Type*} [AddCommMonoid M]

/-- Splitting a flat index range into `n` tiles of width `L`. -/
theorem sum_range_tiles (f : Nat → M) (L n : Nat) :
    ∑ b in Finset.range n, ∑ e in Finset.range L, f (b * L + e)
      = ∑ k in Finset.range (n * L), f k := by
  induction n with
  | zero => simp
  | succ n ih =>
      rw [Finset.sum_range_succ, ih, Nat.succ_mul, Finset.sum_range_add]

theorem le_divRoundup_mul (C L : Nat) (hL : 0 < L) : C ≤ divRoundup C L * L := by
  by_contra h
  push_neg at h
  have hsucc : (divRoundup C L + 1) * L = divRoundup C L * L + L := Nat.succ_mul _ _
  have h2 : (divRoundup C L + 1) * L ≤ C + L - 1 := by omega
  have h3 : divRoundup C L + 1 ≤ (C + L - 1) / L := (Nat.le_div_iff_mul_le hL).mpr h2
  unfold divRoundup at h3
  omega

theorem divRoundup_pred_mul_lt (C L : Nat) (hL : 0 < L) (hC : 0 < C) :
    (divRoundup C L - 1) * L < C := by
  by_contra h
  push_neg at h
  have hq : 0 < divRoundup C L := by
    unfold divRoundup
    exact Nat.div_pos (by omega) hL
  have h3 : (L - 1 + (divRoundup C L - 1) * L) / L = divRoundup C L - 1 := by
    rw [Nat.add_mul_div_right _ _ hL, Nat.div_eq_of_lt (by omega)]
    omega
  have h2 : (C + L - 1) / L ≤ (L - 1 + (divRoundup C L - 1) * L) / L :=
    Nat.div_le_div_right (by omega)
  rw [h3] at h2
  unfold divRoundup at h2 hq
  omega

theorem tile_start_lt (C L b : Nat) (hL : 0 < L) (hb : b < divRoundup C L) :
    b * L < C := by
  have hC : 0 < C := by
    rcases Nat.eq_zero_or_pos C with h0 | h0
    · subst h0
      have hz : divRoundup 0 L = 0 := Nat.div_eq_of_lt (by omega)
      omega
    · exact h0
  have h1 := divRoundup_pred_mul_lt C L hL hC
  have hle : b ≤ divRoundup C L - 1 := by omega
  have hmul : b * L ≤ (divRoundup C L - 1) * L := Nat.mul_le_mul_right _ hle
  omega

/-- The tiled double sum with zero padding in the last tile equals the flat
sum: the generic shape of the kernels' block/sub-block loop nests. -/
theorem tile_pad_sum (f : Nat → M) (L C : Nat) (hL : 0 < L) :
    ∑ b in Finset.range (divRoundup C L), ∑ e in Finset.range L,
        (if b * L + e < C then f (b * L + e) else 0)
      = ∑ k in Finset.range C, f k := by
  rw [sum_range_tiles (fun k => if k < C then f k else 0) L (divRoundup C L)]
  rw [← Finset.sum_subset (Finset.range_subset.mpr (le_divRoundup_mul C L hL))]
  · exact Finset.sum_congr rfl (fun k hk => by
      rw [Finset.mem_range] at hk
      simp [hk])
  · intro k _ hk
    rw [Finset.mem_range] at hk
    simp [hk]

/-- Padded tiles where the bound is expressed with `min`, as the source
writes it (`k_subblk_len = min(k_blk_len - k_idx, SubBlkLen)`). -/
theorem tile_min_sum (f : Nat → M) (L C : Nat) (hL : 0 < L) :
    ∑ b in Finset.range (divRoundup C L), ∑ e in Finset.range L,
        (if e < min (C - b * L) L then f (b * L + e) else 0)
      = ∑ k in Finset.range C, f k := by
  rw [← tile_pad_sum f L C hL]
  refine Finset.sum_congr rfl (fun b hb => Finset.sum_congr rfl (fun e he => ?_))
  rw [Finset.mem_range] at hb he
  have hstart := tile_start_lt C L b hL hb
  by_cases h : b * L + e < C
  · rw [if_pos h, if_pos (by omega)]
  · rw [if_neg h, if_neg (by omega)]

/-- Processing blocks in adjacent pairs plus an odd remainder covers each
block exactly once: the shape of the `k_blks_remaining > 1` loops. -/
theorem pair_sum (f : Nat → M) (n : Nat) :
    (∑ p in Finset.range (n / 2), (f (2 * p) + f (2 * p + 1)))
        + (if n % 2 = 1 then f (n - 1) else 0)
      = ∑ k in Finset.range n, f k := by
  have h1 : ∀ p, f (2 * p) + f (2 * p + 1)
      = ∑ e in Finset.range 2, f (p * 2 + e) := by
    intro p
    rw [Finset.sum_range_succ, Finset.sum_range_one, Nat.mul_comm p 2]
    simp
  simp only [h1]
  rw [sum_range_tiles f 2 (n / 2)]
  rcases Nat.mod_two_eq_zero_or_one n with hm | hm
  · have h2 : n / 2 * 2 = n := by omega
    rw [h2, hm]
    simp
  · have hn : n = n / 2 * 2 + 1 := by omega
    have harg : n - 1 = n / 2 * 2 := by omega
    rw [hm, if_pos rfl, harg]
    conv_rhs => rw [hn]
    rw [Finset.sum_range_succ]

end TilingLemmas

/-! ## Nibble algebra -/

theorem nibLo_lt (b : Nat) : nibLo b < 16 := Nat.mod_lt _ (by omega)

theorem nibHi_lt (b : Nat) : nibHi b < 16 := Nat.mod_lt _ (by omega)

theorem nibLo_combine (a b : Nat) (ha : a < 16) : nibLo (a + 16 * b) = a := by
  unfold nibLo
  omega

theorem nibHi_combine (a b : Nat) (ha : a < 16) (hb : b < 16) :
    nibHi (a + 16 * b) = b := by
  unfold nibHi
  omega

theorem nib_split (b : Nat) (hb : b < 256) : nibLo b + 16 * nibHi b = b := by
  unfold nibLo nibHi
  omega

/-! ## Quantized B data packing (`SQ4BitGemmPackQuantBDataSize`,
`SQ4BitGemmPackQuantBData`) -/

/-- Source `SQ4BitGemmPackQuantBDataSize(N, K, BlkLen, ComputeType)`: the byte size
of the packed B data; the `ComputeType` parameter is unreferenced (same size
regardless of compute type). -/
def SQ4BitGemmPackQuantBDataSize (N K BlkLen : Nat) (ct : ComputeType) : Nat :=
  match ct with
  | _ => N * divRoundup K BlkLen * blkDataSize BlkLen

/-- Sub-block interleave width chosen by the packing routine:
`CompInt8` uses 16 when `BlkLen == 16` and 32 otherwise; `CompFp32` uses 16. -/
def subBlkLen (ct : ComputeType) (BlkLen : Nat) : Nat :=
  match ct with
  | .compInt8 => if BlkLen = 16 then 16 else 32
  | .compFp32 => 16

/-- One sub-block-interleave step of `SQ4BitGemmPackQuantBData`, as a map
from destination byte index (within one block's data) to byte value.
Sub-block `d / (S/2)`; within it, destination bytes `2*i` and `2*i+1` are
built from source bytes `i` and `i + S/4`:
`dst0 = (src0 & 0xF) | ((src1 & 0xF) << 4)`, `dst1 = (src0 >> 4) | ((src1 >> 4) << 4)`. -/
def packBlkByte (S : Nat) (src : Nat → Nat) (d : Nat) : Nat :=
  if d % (S / 2) % 2 = 0 then
    nibLo (src (d / (S / 2) * (S / 2) + d % (S / 2) / 2))
      + 16 * nibLo (src (d / (S / 2) * (S / 2) + d % (S / 2) / 2 + S / 4))
  else
    nibHi (src (d / (S / 2) * (S / 2) + d % (S / 2) / 2))
      + 16 * nibHi (src (d / (S / 2) * (S / 2) + d % (S / 2) / 2 + S / 4))

/-- Source `SQ4BitGemmPackQuantBData`: each (column, block) unit of `BlkLen/2` bytes
is rewritten in place by the sub-block interleave; source and destination
offsets of a unit coincide, so the transform acts blockwise on the flat
buffer.  `N` and `K` only bound the iteration space and do not affect the
value at a given in-range byte. -/
def SQ4BitGemmPackQuantBData (BlkLen : Nat) (ct : ComputeType) (src : Nat → Nat) :
    Nat → Nat :=
  fun idx =>
    packBlkByte (subBlkLen ct BlkLen)
      (fun j => src (idx / blkDataSize BlkLen * blkDataSize BlkLen + j))
      (idx % blkDataSize BlkLen)

/-- Logical 4-bit code `k` of a linear (pre-packing) two-codes-per-byte
block layout starting at byte `base`: code `2i` is the low nibble of byte
`i`, code `2i+1` its high nibble. -/
def linNib (src : Nat → Nat) (base k : Nat) : Nat :=
  if k % 2 = 0 then nibLo (src (base + k / 2)) else nibHi (src (base + k / 2))

/-- Modelled from the spec: the inverse of the packing interleave (the spec
requires `Unpack(Pack(X)) == X`; no unpack routine appears in the sources).
Packed sub-block byte `j` holds logical code `j` in its low nibble and code
`j + S/2` in its high nibble, so source byte `i` (holding codes `2i` and
`2i+1`) is reassembled from the corresponding packed nibbles. -/
def unpackBlkByte (S : Nat) (p : Nat → Nat) (d : Nat) : Nat :=
  (if 2 * (d % (S / 2)) < S / 2
   then nibLo (p (d / (S / 2) * (S / 2) + 2 * (d % (S / 2))))
   else nibHi (p (d / (S / 2) * (S / 2) + 2 * (d % (S / 2)) - S / 2)))
  + 16 *
  (if 2 * (d % (S / 2)) + 1 < S / 2
   then nibLo (p (d / (S / 2) * (S / 2) + 2 * (d % (S / 2)) + 1))
   else nibHi (p (d / (S / 2) * (S / 2) + 2 * (d % (S / 2)) + 1 - S / 2)))

/-- Modelled from the spec: blockwise inverse of `SQ4BitGemmPackQuantBData`. -/
def UnpackQuantBData (BlkLen : Nat) (ct : ComputeType) (p : Nat → Nat) :
    Nat → Nat :=
  fun idx =>
    unpackBlkByte (subBlkLen ct BlkLen)
      (fun j => p (idx / blkDataSize BlkLen * blkDataSize BlkLen + j))
      (idx % blkDataSize BlkLen)

/-- Reading logical code `p` from a sub-block-interleaved block at byte
`base`: sub-block `p / S`; within it, codes `0..S/2-1` are the low nibbles
of its `S/2` bytes in order and codes `S/2..S-1` the high nibbles.  This is
exactly how the compute kernels consume packed B data (mask with `0x0F`
for the low half, shift right by 4 for the high half). -/
def subBlkNib (S : Nat) (bB : Nat → Nat) (base p : Nat) : Nat :=
  if p % S < S / 2 then nibLo (bB (base + p / S * (S / 2) + p % S))
  else nibHi (bB (base + p / S * (S / 2) + p % S - S / 2))

theorem packBlkByte_nibLo (S : Nat) (hS : S = 16 ∨ S = 32) (src : Nat → Nat)
    (d : Nat) :
    nibLo (packBlkByte S src d)
      = linNib src 0 (d / (S / 2) * S + d % (S / 2)) := by
  have hpar : (d / (S / 2) * S + d % (S / 2)) % 2 = d % (S / 2) % 2 := by
    rcases hS with h | h <;> subst h <;> omega
  have hdiv : 0 + (d / (S / 2) * S + d % (S / 2)) / 2
      = d / (S / 2) * (S / 2) + d % (S / 2) / 2 := by
    rcases hS with h | h <;> subst h <;> omega
  unfold packBlkByte linNib
  rcases Nat.mod_two_eq_zero_or_one (d % (S / 2)) with hr | hr
  · rw [if_pos hr, hpar, if_pos hr, nibLo_combine _ _ (nibLo_lt _), hdiv]
  · rw [if_neg (by omega), hpar, if_neg (by omega),
      nibLo_combine _ _ (nibHi_lt _), hdiv]

theorem packBlkByte_nibHi (S : Nat) (hS : S = 16 ∨ S = 32) (src : Nat → Nat)
    (d : Nat) :
    nibHi (packBlkByte S src d)
      = linNib src 0 (d / (S / 2) * S + d % (S / 2) + S / 2) := by
  have hpar : (d / (S / 2) * S + d % (S / 2) + S / 2) % 2 = d % (S / 2) % 2 := by
    rcases hS with h | h <;> subst h <;> omega
  have hdiv : 0 + (d / (S / 2) * S + d % (S / 2) + S / 2) / 2
      = d / (S / 2) * (S / 2) + d % (S / 2) / 2 + S / 4 := by
    rcases hS with h | h <;> subst h <;> omega
  unfold packBlkByte linNib
  rcases Nat.mod_two_eq_zero_or_one (d % (S / 2)) with hr | hr
  · rw [if_pos hr, hpar, if_pos hr,
      nibHi_combine _ _ (nibLo_lt _) (nibLo_lt _), hdiv]
  · rw [if_neg (by omega), hpar, if_neg (by omega),
      nibHi_combine _ _ (nibHi_lt _) (nibHi_lt _), hdiv]

/-- Per-block roundtrip: unpacking a packed block restores every byte. -/
theorem unpackBlkByte_packBlkByte (S : Nat) (hS : S = 16 ∨ S = 32)
    (src : Nat → Nat) (hsrc : ∀ i, src i < 256) (d : Nat) :
    unpackBlkByte S (packBlkByte S src) d = src d := by
  have hv0 : (if 2 * (d % (S / 2)) < S / 2
      then nibLo (packBlkByte S src (d / (S / 2) * (S / 2) + 2 * (d % (S / 2))))
      else nibHi (packBlkByte S src (d / (S / 2) * (S / 2) + 2 * (d % (S / 2)) - S / 2)))
      = nibLo (src d) := by
    by_cases h : 2 * (d % (S / 2)) < S / 2
    · rw [if_pos h, packBlkByte_nibLo S hS]
      unfold linNib
      rcases hS with hs | hs <;> subst hs <;>
        · rw [if_pos (by omega)]
          congr 2
          omega
    · rw [if_neg h, packBlkByte_nibHi S hS]
      unfold linNib
      rcases hS with hs | hs <;> subst hs <;>
        · rw [if_pos (by omega)]
          congr 2
          omega
  have hv1 : (if 2 * (d % (S / 2)) + 1 < S / 2
      then nibLo (packBlkByte S src (d / (S / 2) * (S / 2) + 2 * (d % (S / 2)) + 1))
      else nibHi (packBlkByte S src (d / (S / 2) * (S / 2) + 2 * (d % (S / 2)) + 1 - S / 2)))
      = nibHi (src d) := by
    by_cases h : 2 * (d % (S / 2)) + 1 < S / 2
    · rw [if_pos h, packBlkByte_nibLo S hS]
      unfold linNib
      rcases hS with hs | hs <;> subst hs <;>
        · rw [if_neg (by omega)]
          congr 2
          omega
    · rw [if_neg h, packBlkByte_nibHi S hS]
      unfold linNib
      rcases hS with hs | hs <;> subst hs <;>
        · rw [if_neg (by omega)]
          congr 2
          omega
  unfold unpackBlkByte
  rw [hv0, hv1, nib_split _ (hsrc d)]

/-- Reading a packed block through the kernels' sub-block nibble access
recovers the logical linear code: packing permutes codes within a block and
preserves the logical position-to-code mapping. -/
theorem subBlkNib_packBlkByte (S : Nat) (hS : S = 16 ∨ S = 32)
    (src : Nat → Nat) (p : Nat) :
    subBlkNib S (packBlkByte S src) 0 p = linNib src 0 p := by
  unfold subBlkNib
  by_cases h : p % S < S / 2
  · rw [if_pos h, packBlkByte_nibLo S hS]
    congr 1
    rcases hS with hs | hs <;> subst hs <;> omega
  · rw [if_neg h, packBlkByte_nibHi S hS]
    congr 1
    rcases hS with hs | hs <;> subst hs <;> omega

theorem packQuantBData_at (BlkLen : Nat) (ct : ComputeType) (src : Nat → Nat)
    (u j : Nat) (hj : j < blkDataSize BlkLen) (hpos : 0 < blkDataSize BlkLen) :
    SQ4BitGemmPackQuantBData BlkLen ct src (u * blkDataSize BlkLen + j)
      = packBlkByte (subBlkLen ct BlkLen)
          (fun j' => src (u * blkDataSize BlkLen + j')) j := by
  unfold SQ4BitGemmPackQuantBData
  have hdiv : (u * blkDataSize BlkLen + j) / blkDataSize BlkLen = u := by
    rw [Nat.add_comm, Nat.add_mul_div_right _ _ hpos, Nat.div_eq_of_lt hj,
      Nat.zero_add]
  have hmod : (u * blkDataSize BlkLen + j) % blkDataSize BlkLen = j := by
    rw [Nat.add_comm, Nat.add_mul_mod_self_right, Nat.mod_eq_of_lt hj]
  rw [hdiv, hmod]

theorem unpackBlkByte_congr (S : Nat) (hS : S = 16 ∨ S = 32) (B : Nat)
    (hdvd : S / 2 ∣ B) (p₁ p₂ : Nat → Nat) (d : Nat) (hd : d < B)
    (hp : ∀ j, j < B → p₁ j = p₂ j) :
    unpackBlkByte S p₁ d = unpackBlkByte S p₂ d := by
  obtain ⟨c, hc⟩ := hdvd
  rcases hS with hs | hs <;> subst hs <;>
  · unfold unpackBlkByte
    split_ifs <;> rw [hp _ (by omega), hp _ (by omega)]

theorem subBlkNib_shift (S : Nat) (hS : S = 16 ∨ S = 32) (B : Nat)
    (hdvd : S / 2 ∣ B) (p q : Nat → Nat) (base j : Nat) (hj : j < 2 * B)
    (hacc : ∀ d', d' < B → p (base + d') = q d') :
    subBlkNib S p base j = subBlkNib S q 0 j := by
  obtain ⟨c, hc⟩ := hdvd
  rcases hS with hs | hs
  · subst hs
    unfold subBlkNib
    split_ifs with h
    · have e1 : base + j / 16 * (16 / 2) + j % 16
          = base + (j / 16 * (16 / 2) + j % 16) := by omega
      rw [e1, hacc _ (by omega)]
      congr 2
      omega
    · have e1 : base + j / 16 * (16 / 2) + j % 16 - 16 / 2
          = base + (j / 16 * (16 / 2) + j % 16 - 16 / 2) := by omega
      rw [e1, hacc _ (by omega)]
      congr 2
      omega
  · subst hs
    unfold subBlkNib
    split_ifs with h
    · have e1 : base + j / 32 * (32 / 2) + j % 32
          = base + (j / 32 * (32 / 2) + j % 32) := by omega
      rw [e1, hacc _ (by omega)]
      congr 2
      omega
    · have e1 : base + j / 32 * (32 / 2) + j % 32 - 32 / 2
          = base + (j / 32 * (32 / 2) + j % 32 - 32 / 2) := by omega
      rw [e1, hacc _ (by omega)]
      congr 2
      omega

theorem linNib_shift (src : Nat → Nat) (base j : Nat) :
    linNib (fun j' => src (base + j')) 0 j = linNib src base j := by
  unfold linNib
  split_ifs <;>
  · congr 2
    omega

/-- C4. The packing transform is invertible: for every `BlkLen` in
{16, 32, 64, 128} and both compute modes (selecting sub-block interleave
width 16 or 32), `Unpack(Pack(X)) == X` at every byte; moreover packing only
permutes 4-bit codes within each (column, block) unit of `BlkLen/2` bytes
(`u` ranges over those units in column-major order) and preserves the
logical position-to-code mapping: the kernels' sub-block nibble read of the
packed data at logical position `j` equals the linear two-codes-per-byte
code of the original data. -/
theorem pack_roundtrip_and_logical_map (BlkLen : Nat) (src : Nat → Nat)
    (hB : BlkLen = 16 ∨ BlkLen = 32 ∨ BlkLen = 64 ∨ BlkLen = 128)
    (hsrc : ∀ i, src i < 256) :
    (∀ ct : ComputeType, ∀ idx : Nat,
        UnpackQuantBData BlkLen ct (SQ4BitGemmPackQuantBData BlkLen ct src) idx
          = src idx)
    ∧ (∀ ct : ComputeType, ∀ u j : Nat, j < BlkLen →
        subBlkNib (subBlkLen ct BlkLen) (SQ4BitGemmPackQuantBData BlkLen ct src)
            (u * blkDataSize BlkLen) j
          = linNib src (u * blkDataSize BlkLen) j) := by
  have hfacts : ∀ ct : ComputeType,
      (subBlkLen ct BlkLen = 16 ∨ subBlkLen ct BlkLen = 32)
      ∧ subBlkLen ct BlkLen / 2 ∣ blkDataSize BlkLen
      ∧ 0 < blkDataSize BlkLen
      ∧ 2 * blkDataSize BlkLen = BlkLen := by
    intro ct
    rcases hB with h | h | h | h <;> subst h <;> cases ct <;>
      simp [subBlkLen, blkDataSize] <;> decide
  constructor
  · intro ct idx
    obtain ⟨hS, hdvd, hpos, h2B⟩ := hfacts ct
    show unpackBlkByte (subBlkLen ct BlkLen)
        (fun j => SQ4BitGemmPackQuantBData BlkLen ct src
          (idx / blkDataSize BlkLen * blkDataSize BlkLen + j))
        (idx % blkDataSize BlkLen) = src idx
    rw [unpackBlkByte_congr (subBlkLen ct BlkLen) hS (blkDataSize BlkLen) hdvd _
        (packBlkByte (subBlkLen ct BlkLen)
          (fun j' => src (idx / blkDataSize BlkLen * blkDataSize BlkLen + j')))
        _ (Nat.mod_lt _ hpos)
        (fun j hj => packQuantBData_at BlkLen ct src _ j hj hpos)]
    rw [unpackBlkByte_packBlkByte (subBlkLen ct BlkLen) hS _ (fun i => hsrc _) _]
    congr 1
    exact Nat.div_add_mod' idx _
  · intro ct u j hj
    obtain ⟨hS, hdvd, hpos, h2B⟩ := hfacts ct
    rw [subBlkNib_shift (subBlkLen ct BlkLen) hS (blkDataSize BlkLen) hdvd _
        (packBlkByte (subBlkLen ct BlkLen)
          (fun j' => src (u * blkDataSize BlkLen + j')))
        (u * blkDataSize BlkLen) j (by omega)
        (fun d' hd' => packQuantBData_at BlkLen ct src u d' hd' hpos)]
    rw [subBlkNib_packBlkByte _ hS, linNib_shift]

/-- Witness for C4 at `BlkLen = 16`, `CompInt8`, a concrete byte pattern. -/
theorem pack_roundtrip_witness :
    UnpackQuantBData 16 ComputeType.compInt8
        (SQ4BitGemmPackQuantBData 16 ComputeType.compInt8 (fun i => i * 37 % 256)) 5
      = 5 * 37 % 256 :=
  (pack_roundtrip_and_logical_map 16 (fun i => i * 37 % 256) (Or.inl rfl)
    (fun i => Nat.mod_lt _ (by omega))).1 ComputeType.compInt8 5

/-- C9. The packed-size query returns exactly
`N * ceil(K / BlkLen) * (BlkLen * 4 / 8)` bytes and the result does not
depend on the compute type. -/
theorem packQuantBDataSize_formula (N K BlkLen : Nat) (ct : ComputeType) :
    SQ4BitGemmPackQuantBDataSize N K BlkLen ct
        = N * divRoundup K BlkLen * (BlkLen * 4 / 8)
    ∧ SQ4BitGemmPackQuantBDataSize N K BlkLen ct
        = SQ4BitGemmPackQuantBDataSize N K BlkLen ComputeType.compFp32 := by
  cases ct <;> exact ⟨rfl, rfl⟩

/-! ## Activation quantizer (`QuantizeBlock<16>`, `QuantizeARow_CompInt8`) -/

/-- Semantics of the A64 `FCVTAS` instruction (`vcvtaq_s32_f32`): convert to
a signed integer, rounding to nearest with ties away from zero. -/
def roundAway (q : ℚ) : ℤ := if 0 ≤ q then ⌊q + 1 / 2⌋ else -⌊-q + 1 / 2⌋

/-- Source `static_cast<int8_t>` of an int32 value: two's-complement wraparound
into `[-128, 127]`.  On the in-range values produced by the quantizer it is
the identity. -/
def toInt8 (x : ℤ) : ℤ := (x + 128) % 256 - 128

/-- Modelled from the spec: the naive round-half-to-even rounding the spec
contrasts the kernel's rounding against. -/
def roundHalfEven (q : ℚ) : ℤ :=
  if q - ⌊q⌋ < 1 / 2 then ⌊q⌋
  else if 1 / 2 < q - ⌊q⌋ then ⌊q⌋ + 1
  else if ⌊q⌋ % 2 = 0 then ⌊q⌋ else ⌊q⌋ + 1

/-- Max of absolute values over one 16-wide sub-chunk of `QuantizeBlock`
(positions past `ElementCount` are the zeros `LoadFloatData` pads with; the
NEON pairwise `vmaxq`/`vmaxvq` tree over 16 nonnegative values is their
maximum). -/
def subBlkAbsMax (A : Nat → ℚ) (ElementCount sb : Nat) : ℚ :=
  Finset.fold max 0
    (fun e => |if sb * 16 + e < ElementCount then A (sb * 16 + e) else 0|)
    (Finset.range 16)

/-- The running-`amax` loop of `QuantizeBlock`: `amax` starts at `0.0f` and
is updated with each sub-chunk's absolute maximum. -/
def amaxLoop (A : Nat → ℚ) (ElementCount : Nat) : Nat → ℚ
  | 0 => 0
  | n + 1 => max (amaxLoop A ElementCount n) (subBlkAbsMax A ElementCount n)

/-- Source `amax` after scanning all `ceil(ElementCount / 16)` sub-chunks. -/
def blockAmax (A : Nat → ℚ) (ElementCount : Nat) : ℚ :=
  amaxLoop A ElementCount (divRoundup ElementCount 16)

/-- The block scale written by `QuantizeBlock`: `amax / range_max` with
`range_max = (1 << 7) - 1 = 127`. -/
def q8BlkScaleOf (A : Nat → ℚ) (ElementCount : Nat) : ℚ :=
  blockAmax A ElementCount / 127

/-- The reciprocal used for quantization:
`scale != 0.0f ? 1.0f / scale : 0.0f`. -/
def scaleRecipOf (A : Nat → ℚ) (ElementCount : Nat) : ℚ :=
  if q8BlkScaleOf A ElementCount ≠ 0 then 1 / q8BlkScaleOf A ElementCount else 0

/-- The int8 code `QuantizeBlock` stores at position `j` of the block:
positions below the 16-rounded-up element count are quantized from the
(zero-padded) loads; the remaining positions up to `BlkLen` are zero-filled
by the trailing loop. -/
def quantizeBlockCode (BlkLen : Nat) (A : Nat → ℚ) (ElementCount j : Nat) : ℤ :=
  if j < divRoundup ElementCount 16 * 16 then
    toInt8 (roundAway ((if j < ElementCount then A j else 0)
      * scaleRecipOf A ElementCount))
  else 0

/-- Source `QuantizeARow_CompInt8`: scale of quantized-A block `blk` of a row
(`k_blk_len = min(CountK - k, BlkLen)` elements starting at `k = blk * BlkLen`). -/
def quantizeARowScale (BlkLen : Nat) (A : Nat → ℚ) (CountK blk : Nat) : ℚ :=
  q8BlkScaleOf (fun j => A (blk * BlkLen + j)) (min (CountK - blk * BlkLen) BlkLen)

/-- Source `QuantizeARow_CompInt8`: int8 code `j` of quantized-A block `blk`. -/
def quantizeARowCode (BlkLen : Nat) (A : Nat → ℚ) (CountK blk j : Nat) : ℤ :=
  quantizeBlockCode BlkLen (fun j' => A (blk * BlkLen + j'))
    (min (CountK - blk * BlkLen) BlkLen) j

theorem fold_max_zero_nonneg (f : Nat → ℚ) (s : Finset Nat) :
    0 ≤ s.fold max 0 f := by
  induction s using Finset.induction_on with
  | empty => simp
  | insert h ih =>
      rw [Finset.fold_insert h]
      exact le_trans ih (le_max_right _ _)

theorem fold_max_range_succ (f : Nat → ℚ) (n : Nat) :
    (Finset.range (n + 1)).fold max 0 f
      = max ((Finset.range n).fold max 0 f) (f n) := by
  rw [Finset.range_succ, Finset.fold_insert Finset.not_mem_range_self, max_comm]

theorem fold_max_range_add (f : Nat → ℚ) (a b : Nat) :
    (Finset.range (a + b)).fold max 0 f
      = max ((Finset.range a).fold max 0 f)
          ((Finset.range b).fold max 0 (fun e => f (a + e))) := by
  induction b with
  | zero =>
      simp only [Nat.add_zero, Finset.range_zero, Finset.fold_empty]
      exact (max_eq_left (fold_max_zero_nonneg f _)).symm
  | succ b ih =>
      rw [← Nat.add_assoc, fold_max_range_succ, ih, fold_max_range_succ, max_assoc]

theorem fold_max_congr (f g : Nat → ℚ) (n : Nat)
    (h : ∀ k, k < n → f k = g k) :
    (Finset.range n).fold max 0 f = (Finset.range n).fold max 0 g := by
  induction n with
  | zero => simp
  | succ n ih =>
      rw [fold_max_range_succ, fold_max_range_succ,
        ih (fun k hk => h k (by omega)), h n (by omega)]

theorem fold_max_zero_of_zero (f : Nat → ℚ) (n : Nat)
    (h : ∀ k, k < n → f k = 0) :
    (Finset.range n).fold max 0 f = 0 := by
  induction n with
  | zero => simp
  | succ n ih =>
      rw [fold_max_range_succ, ih (fun k hk => h k (by omega)), h n (by omega),
        max_self]

/-- The sub-chunked `amax` reduction computes the maximum of the absolute
values of the block's elements (as a `fold max 0`; every `|A k|` is
nonnegative, so the `0` base is absorbed). -/
theorem blockAmax_eq (A : Nat → ℚ) (EC : Nat) :
    blockAmax A EC = (Finset.range EC).fold max 0 (fun k => |A k|) := by
  have hloop : ∀ n, amaxLoop A EC n
      = (Finset.range (n * 16)).fold max 0
          (fun k => |if k < EC then A k else 0|) := by
    intro n
    induction n with
    | zero => simp [amaxLoop]
    | succ n ih =>
        show max (amaxLoop A EC n) (subBlkAbsMax A EC n) = _
        rw [ih, Nat.succ_mul, fold_max_range_add]
        rfl
  show amaxLoop A EC (divRoundup EC 16) = _
  rw [hloop]
  have hEC : EC ≤ divRoundup EC 16 * 16 := le_divRoundup_mul EC 16 (by omega)
  have h1 := fold_max_range_add (fun k => |if k < EC then A k else 0|) EC
      (divRoundup EC 16 * 16 - EC)
  rw [show EC + (divRoundup EC 16 * 16 - EC) = divRoundup EC 16 * 16 from by
    omega] at h1
  rw [h1]
  have h2 : (Finset.range (divRoundup EC 16 * 16 - EC)).fold max 0
      (fun e => |if EC + e < EC then A (EC + e) else 0|) = 0 :=
    fold_max_zero_of_zero _ _ (fun k hk => by
      rw [if_neg (by omega)]
      simp)
  rw [h2, max_eq_left (fold_max_zero_nonneg _ _)]
  exact fold_max_congr _ _ _ (fun k hk => by rw [if_pos hk])

/-- C5. The stored block scale is `amax / 127` with `amax` the maximum of
the elements' absolute values; the reciprocal used for quantization is
`1/scale` guarded to `0` when the scale is zero; an all-zero block yields
scale `0` and all-zero codes (the guard, not a division, handles the
degenerate case). -/
theorem quantizeBlock_scale_spec (A : Nat → ℚ) (EC BlkLen : Nat) :
    q8BlkScaleOf A EC = (Finset.range EC).fold max 0 (fun k => |A k|) / 127
    ∧ scaleRecipOf A EC
        = (if q8BlkScaleOf A EC ≠ 0 then 1 / q8BlkScaleOf A EC else 0)
    ∧ ((∀ k, k < EC → A k = 0) →
        q8BlkScaleOf A EC = 0 ∧ ∀ j, quantizeBlockCode BlkLen A EC j = 0) := by
  refine ⟨by rw [q8BlkScaleOf, blockAmax_eq], rfl, fun hz => ?_⟩
  have hamax : blockAmax A EC = 0 := by
    rw [blockAmax_eq]
    exact fold_max_zero_of_zero _ _ (fun k hk => by rw [hz k hk, abs_zero])
  have hscale : q8BlkScaleOf A EC = 0 := by
    rw [q8BlkScaleOf, hamax]
    norm_num
  refine ⟨hscale, fun j => ?_⟩
  unfold quantizeBlockCode
  by_cases hj : j < divRoundup EC 16 * 16
  · rw [if_pos hj]
    have hval : (if j < EC then A j else 0) = 0 := by
      by_cases hje : j < EC
      · rw [if_pos hje, hz j hje]
      · rw [if_neg hje]
    rw [hval]
    norm_num [roundAway, toInt8]
  · rw [if_neg hj]

/-- Concrete tie input: `2.5` and `-2.5` with an element of magnitude `127`
so that the block scale is exactly `1`. -/
def aTie : Nat → ℚ := fun j =>
  if j = 0 then 5 / 2 else if j = 1 then -(5 / 2) else if j = 2 then 127 else 0

/-- C6. Every stored code is `FCVTAS(value * inv_scale)`, i.e. rounding to
nearest with ties away from zero (then cast to int8); on the ties `2.5` and
`-2.5` this gives `3` and `-3`, whereas round-half-to-even would give `2`
and `-2`. -/
theorem quantize_rounds_half_away (A : Nat → ℚ) (EC BlkLen : Nat) :
    (∀ j, j < EC → quantizeBlockCode BlkLen A EC j
        = toInt8 (roundAway (A j * scaleRecipOf A EC)))
    ∧ roundAway (5 / 2) = 3 ∧ roundAway (-(5 / 2)) = -3
    ∧ roundHalfEven (5 / 2) = 2 ∧ roundHalfEven (-(5 / 2)) = -2 := by
  refine ⟨fun j hj => ?_, by norm_num [roundAway], by norm_num [roundAway],
    ?_, ?_⟩
  · unfold quantizeBlockCode
    have h16 : EC ≤ divRoundup EC 16 * 16 := le_divRoundup_mul EC 16 (by omega)
    rw [if_pos (by omega), if_pos hj]
  · have hf : ⌊(5 / 2 : ℚ)⌋ = 2 := by norm_num [Int.floor_eq_iff]
    norm_num [roundHalfEven, hf]
  · have hf : ⌊(-(5 / 2) : ℚ)⌋ = -3 := by norm_num [Int.floor_eq_iff]
    norm_num [roundHalfEven, hf]

/-- Witness for C6: a block holding `2.5`, `-2.5` and `127` (so the scale is
exactly `1`) quantizes the ties to `3` and `-3`. -/
theorem quantize_rounds_witness :
    quantizeBlockCode 16 aTie 3 0 = 3 ∧ quantizeBlockCode 16 aTie 3 1 = -3 := by
  have h0 := (quantize_rounds_half_away aTie 3 16).1 0 (by norm_num)
  have h1 := (quantize_rounds_half_away aTie 3 16).1 1 (by norm_num)
  have hrecip : scaleRecipOf aTie 3 = 1 := by
    have hfold : (Finset.range 3).fold max 0 (fun k => |aTie k|) = 127 := by
      have hbase : (Finset.range 0).fold max 0 (fun k => |aTie k|) = 0 := by
        rw [Finset.range_zero, Finset.fold_empty]
      rw [fold_max_range_succ, fold_max_range_succ, fold_max_range_succ, hbase]
      norm_num [aTie]
      rw [abs_of_nonneg (by norm_num : (0 : ℚ) ≤ 5 / 2)]
      norm_num
    have hscale : q8BlkScaleOf aTie 3 = 1 := by
      rw [q8BlkScaleOf, blockAmax_eq, hfold]
      norm_num
    rw [scaleRecipOf, hscale]
    norm_num
  rw [h0, h1, hrecip]
  constructor
  · show toInt8 (roundAway (aTie 0 * 1)) = 3
    rw [show aTie 0 = 5 / 2 from rfl]
    norm_num [roundAway, toInt8, Int.floor_eq_iff]
  · show toInt8 (roundAway (aTie 1 * 1)) = -3
    rw [show aTie 1 = -(5 / 2) from rfl]
    norm_num [roundAway, toInt8, Int.floor_eq_iff]

/-- Witness for C5: an all-zero block has scale `0` and zero codes. -/
theorem quantizeBlock_scale_witness :
    q8BlkScaleOf (fun _ => 0) 16 = 0 ∧ quantizeBlockCode 16 (fun _ => 0) 16 3 = 0 := by
  have h := (quantizeBlock_scale_spec (fun _ => 0) 16 16).2.2 (fun k _ => rfl)
  exact ⟨h.1, h.2 3⟩

/-- C7. Every position of a quantized-A block at or beyond the row's true
length holds the int8 code `0` (both the quantize loop acting on zero-padded
loads and the trailing zero-fill loop write zeros there), and therefore a
dot product over the full `BlkLen` positions of the block equals the dot
product over the in-range positions alone. -/
theorem quantizeARow_zero_padding (BlkLen CountK : Nat) (A : Nat → ℚ)
    (blk : Nat) :
    (∀ j, j < BlkLen → CountK ≤ blk * BlkLen + j →
        quantizeARowCode BlkLen A CountK blk j = 0)
    ∧ ∀ w : Nat → ℤ,
        ∑ j in Finset.range BlkLen, quantizeARowCode BlkLen A CountK blk j * w j
          = ∑ j in Finset.range (min (CountK - blk * BlkLen) BlkLen),
              quantizeARowCode BlkLen A CountK blk j * w j := by
  have hzero : ∀ j, j < BlkLen → CountK ≤ blk * BlkLen + j →
      quantizeARowCode BlkLen A CountK blk j = 0 := by
    intro j hj hk
    unfold quantizeARowCode quantizeBlockCode
    by_cases hlt : j < divRoundup (min (CountK - blk * BlkLen) BlkLen) 16 * 16
    · rw [if_pos hlt, if_neg (by omega)]
      norm_num [roundAway, toInt8]
    · rw [if_neg hlt]
  refine ⟨hzero, fun w => ?_⟩
  refine (Finset.sum_subset (Finset.range_subset.mpr (by omega)) ?_).symm
  intro j hj hnj
  rw [Finset.mem_range] at hj
  rw [Finset.mem_range] at hnj
  rw [hzero j hj (by omega), Int.zero_mul]

/-- Witness for C7: with `BlkLen = 16`, `CountK = 17`, block 1 position 5 is
padding and holds code `0`. -/
theorem quantizeARow_zero_padding_witness :
    quantizeARowCode 16 (fun _ => 1) 17 1 5 = 0 :=
  (quantizeARow_zero_padding 16 17 (fun _ => 1) 1).1 5 (by norm_num) (by norm_num)

/-! ## CompFp32 kernel (`ComputeDotProducts_BlkBitWidth4_CompFp32`,
`SQ4BitGemmM1Kernel_CompFp32`) -/

theorem blk_div (L b j : Nat) (hL : 0 < L) (hj : j < L) : (b * L + j) / L = b := by
  rw [Nat.add_comm, Nat.add_mul_div_right _ _ hL, Nat.div_eq_of_lt hj,
    Nat.zero_add]

theorem blk_mod (L b j : Nat) (hL : 0 < L) (hj : j < L) : (b * L + j) % L = j := by
  rw [Nat.add_comm, Nat.add_mul_mod_self_right, Nat.mod_eq_of_lt hj]

theorem sum_range_extend {M : Type*} [AddCommMonoid M] (g : Nat → M)
    (m L : Nat) (h : m ≤ L) :
    ∑ j in Finset.range m, g j
      = ∑ j in Finset.range L, (if j < m then g j else 0) := by
  have h1 : ∑ j in Finset.range m, g j
      = ∑ j in Finset.range m, (if j < m then g j else 0) :=
    Finset.sum_congr rfl (fun j hj => by
      rw [Finset.mem_range] at hj
      rw [if_pos hj])
  rw [h1]
  refine Finset.sum_subset (Finset.range_subset.mpr h) (fun x hx hnx => ?_)
  rw [Finset.mem_range] at hx
  have : ¬x < m := fun hlt => hnx (Finset.mem_range.mpr hlt)
  rw [if_neg this]

/-- Value contributed by an optional bias pointer at index `i`: the kernels
add `BiasPtr[i]` when the pointer is non-null and nothing otherwise. -/
def biasVal (bias : Option (Nat → ℚ)) (i : Nat) : ℚ :=
  match bias with
  | some f => f i
  | none => 0

theorem biasVal_some (f : Nat → ℚ) (i : Nat) : biasVal (some f) i = f i := rfl

theorem biasVal_none (i : Nat) : biasVal none i = 0 := rfl

/-- Source `ComputeDotProducts_BlkBitWidth4_CompFp32<NCols, HasZeroPoint>`, value of
output column `i` of the tile (identical expression for the `NCols == 4` and
`NCols == 1` instantiations; only the pointer offsets differ, passed here as
`dOff/sOff/zOff` bases plus `i * stride`).  Structure mirrors the source:
outer loop over `BlkLen`-blocks of K (`divRoundup CountK BlkLen` iterations,
`k_blk_len = min(CountK-k, BlkLen)`), inner loop over 16-wide sub-blocks
with zero-padded A loads (`k_subblk_len = min(k_blk_len-k_idx, 16)`), B
codes read through the 16-wide sub-block interleave, dequantized as
`float(16 + q) - (16 + zp)` (`fp32_conversion::offset` plus zero point,
default zero point 8) times the block scale, accumulated against A; the
bias (when the pointer is non-null) is added once after the K loop. -/
def computeDotProductFp32 (BlkLen CountK : Nat) (hzp : Bool) (A : Nat → ℚ)
    (bB : Nat → Nat) (bS : Nat → ℚ) (bZ : Nat → Nat)
    (dOff sOff zOff sD sS sZ : Nat) (bias : Option (Nat → ℚ)) (bIdx i : Nat) :
    ℚ :=
  (∑ blk in Finset.range (divRoundup CountK BlkLen),
    ∑ sb in Finset.range (divRoundup (min (CountK - blk * BlkLen) BlkLen) 16),
      ∑ e in Finset.range 16,
        (if e < min (min (CountK - blk * BlkLen) BlkLen - sb * 16) 16
          then A (blk * BlkLen + (sb * 16 + e)) else 0)
        * (((16 + subBlkNib 16 bB (dOff + i * sD + blk * blkDataSize BlkLen)
              (sb * 16 + e) : Nat) : ℚ)
            - ((16 + (if hzp then zpNib (fun y => bZ (zOff + i * sZ + y)) blk
                else 8) : Nat) : ℚ))
        * bS (sOff + i * sS + blk))
  + biasVal bias (bIdx + i)

/-- Source `SQ4BitGemmM1Kernel_CompFp32` (through its `HasZeroPoint`-templated
implementation), as a map from output column index `n` to the value stored
in `C[n]`: columns in the leading `4 * (CountN / 4)` region are produced by
the `NCols == 4` tile the column belongs to, the trailing columns by
`NCols == 1` calls with all column pointers advanced per column. -/
def SQ4BitGemmM1Kernel_CompFp32 (BlkLen : Nat) (A : Nat → ℚ)
    (bB : Nat → Nat) (bS : Nat → ℚ) (bZ : Nat → Nat) (hzp : Bool)
    (CountN CountK BlockCountK : Nat) (bias : Option (Nat → ℚ)) (n : Nat) : ℚ :=
  if n < 4 * (CountN / 4) then
    computeDotProductFp32 BlkLen CountK hzp A bB bS bZ
      (4 * (n / 4) * (BlockCountK * blkDataSize BlkLen))
      (4 * (n / 4) * BlockCountK)
      (4 * (n / 4) * zpBytesSize BlockCountK)
      (BlockCountK * blkDataSize BlkLen) BlockCountK (zpBytesSize BlockCountK)
      bias (4 * (n / 4)) (n % 4)
  else
    computeDotProductFp32 BlkLen CountK hzp A bB bS bZ
      (n * (BlockCountK * blkDataSize BlkLen))
      (n * BlockCountK)
      (n * zpBytesSize BlockCountK)
      (BlockCountK * blkDataSize BlkLen) BlockCountK (zpBytesSize BlockCountK)
      bias n 0

/-- The tiled/padded loop nest of `ComputeDotProducts_BlkBitWidth4_CompFp32`
collapses to the flat reference sum over `k < CountK`. -/
theorem cdp_fp32_flat (BlkLen CountK : Nat) (hzp : Bool) (A : Nat → ℚ)
    (bB : Nat → Nat) (bS : Nat → ℚ) (bZ : Nat → Nat)
    (dOff sOff zOff sD sS sZ : Nat) (bias : Option (Nat → ℚ)) (bIdx i : Nat)
    (hpos : 0 < BlkLen) :
    computeDotProductFp32 BlkLen CountK hzp A bB bS bZ dOff sOff zOff sD sS sZ
        bias bIdx i
      = (∑ k in Finset.range CountK,
          A k * (((subBlkNib 16 bB
                  (dOff + i * sD + k / BlkLen * blkDataSize BlkLen)
                  (k % BlkLen) : Nat) : ℚ)
              - ((if hzp then zpNib (fun y => bZ (zOff + i * sZ + y)) (k / BlkLen)
                  else 8 : Nat) : ℚ))
            * bS (sOff + i * sS + k / BlkLen))
        + biasVal bias (bIdx + i) := by
  unfold computeDotProductFp32
  congr 1
  trans (∑ blk in Finset.range (divRoundup CountK BlkLen),
      ∑ j in Finset.range (min (CountK - blk * BlkLen) BlkLen),
        A (blk * BlkLen + j)
          * (((16 + subBlkNib 16 bB (dOff + i * sD + blk * blkDataSize BlkLen)
                j : Nat) : ℚ)
              - ((16 + (if hzp then zpNib (fun y => bZ (zOff + i * sZ + y)) blk
                  else 8) : Nat) : ℚ))
          * bS (sOff + i * sS + blk))
  · refine Finset.sum_congr rfl (fun blk hblk => ?_)
    rw [← tile_min_sum (fun j =>
        A (blk * BlkLen + j)
          * (((16 + subBlkNib 16 bB (dOff + i * sD + blk * blkDataSize BlkLen)
                j : Nat) : ℚ)
              - ((16 + (if hzp then zpNib (fun y => bZ (zOff + i * sZ + y)) blk
                  else 8) : Nat) : ℚ))
          * bS (sOff + i * sS + blk))
      16 (min (CountK - blk * BlkLen) BlkLen) (by omega)]
    refine Finset.sum_congr rfl (fun sb hsb =>
      Finset.sum_congr rfl (fun e he => ?_))
    by_cases hcond : e < min (min (CountK - blk * BlkLen) BlkLen - sb * 16) 16
    · rw [if_pos hcond, if_pos hcond]
    · rw [if_neg hcond, if_neg hcond, Rat.zero_mul, Rat.zero_mul]
  · trans (∑ blk in Finset.range (divRoundup CountK BlkLen),
        ∑ j in Finset.range BlkLen,
          if j < min (CountK - blk * BlkLen) BlkLen then
            A (blk * BlkLen + j)
              * (((16 + subBlkNib 16 bB
                    (dOff + i * sD + blk * blkDataSize BlkLen) j : Nat) : ℚ)
                  - ((16 + (if hzp then
                      zpNib (fun y => bZ (zOff + i * sZ + y)) blk
                      else 8) : Nat) : ℚ))
              * bS (sOff + i * sS + blk)
          else 0)
    · exact Finset.sum_congr rfl (fun blk hblk =>
        sum_range_extend _ _ _ (by omega))
    · rw [show (∑ k in Finset.range CountK,
          A k * (((subBlkNib 16 bB
                  (dOff + i * sD + k / BlkLen * blkDataSize BlkLen)
                  (k % BlkLen) : Nat) : ℚ)
              - ((if hzp then zpNib (fun y => bZ (zOff + i * sZ + y)) (k / BlkLen)
                  else 8 : Nat) : ℚ))
            * bS (sOff + i * sS + k / BlkLen))
        = ∑ k in Finset.range CountK,
          A k * (((16 + subBlkNib 16 bB
                  (dOff + i * sD + k / BlkLen * blkDataSize BlkLen)
                  (k % BlkLen) : Nat) : ℚ)
              - ((16 + (if hzp then
                  zpNib (fun y => bZ (zOff + i * sZ + y)) (k / BlkLen)
                  else 8) : Nat) : ℚ))
            * bS (sOff + i * sS + k / BlkLen)
        from Finset.sum_congr rfl (fun k hk => by push_cast; ring)]
      rw [← tile_min_sum (fun k =>
          A k * (((16 + subBlkNib 16 bB
                  (dOff + i * sD + k / BlkLen * blkDataSize BlkLen)
                  (k % BlkLen) : Nat) : ℚ)
              - ((16 + (if hzp then
                  zpNib (fun y => bZ (zOff + i * sZ + y)) (k / BlkLen)
                  else 8) : Nat) : ℚ))
            * bS (sOff + i * sS + k / BlkLen))
        BlkLen CountK hpos]
      refine Finset.sum_congr rfl (fun blk hblk =>
        Finset.sum_congr rfl (fun j hj => ?_))
      rw [Finset.mem_range] at hj
      by_cases hcond : j < min (CountK - blk * BlkLen) BlkLen
      · rw [if_pos hcond, if_pos hcond,
          blk_div BlkLen blk j hpos hj, blk_mod BlkLen blk j hpos hj]
      · rw [if_neg hcond, if_neg hcond]

/-- C1.  For every `CountN ≥ 1` (tiled plus trailing columns), every
`CountK`, `BlkLen` a positive multiple of 16, with or without zero points,
`SQ4BitGemmM1Kernel_CompFp32` stores at `C[n]` the value
`Σ_{k < CountK} A[k] * (q(k,n) - z(k/BlkLen, n)) * s(k/BlkLen, n)` plus
`Bias[n]` when the bias pointer is non-null, where `q` is the packed 4-bit
code of column `n`, `s` the block scale and `z` the block zero point (8 when
zero points are absent); the trailing 1-wide columns satisfy exactly the
same formula as the 4-wide-tiled columns. -/
theorem m1kernel_fp32_formula (BlkLen CountK CountN : Nat) (hzp : Bool)
    (A : Nat → ℚ) (bB : Nat → Nat) (bS : Nat → ℚ) (bZ : Nat → Nat)
    (bias : Option (Nat → ℚ)) (n : Nat)
    (hdvd : 16 ∣ BlkLen) (hpos : 0 < BlkLen) (hn : n < CountN) :
    SQ4BitGemmM1Kernel_CompFp32 BlkLen A bB bS bZ hzp CountN CountK
        (divRoundup CountK BlkLen) bias n
      = (∑ k in Finset.range CountK,
          A k * (((subBlkNib 16 bB
                  (n * (divRoundup CountK BlkLen * blkDataSize BlkLen)
                    + k / BlkLen * blkDataSize BlkLen)
                  (k % BlkLen) : Nat) : ℚ)
              - ((if hzp then
                  zpNib (fun y => bZ (n * zpBytesSize (divRoundup CountK BlkLen) + y))
                    (k / BlkLen)
                  else 8 : Nat) : ℚ))
            * bS (n * divRoundup CountK BlkLen + k / BlkLen))
        + biasVal bias n := by
  unfold SQ4BitGemmM1Kernel_CompFp32
  by_cases htile : n < 4 * (CountN / 4)
  · rw [if_pos htile, cdp_fp32_flat _ _ _ _ _ _ _ _ _ _ _ _ _ _ _ _ hpos]
    have hn4 : 4 * (n / 4) + n % 4 = n := by omega
    have hD : 4 * (n / 4) * (divRoundup CountK BlkLen * blkDataSize BlkLen)
        + n % 4 * (divRoundup CountK BlkLen * blkDataSize BlkLen)
        = n * (divRoundup CountK BlkLen * blkDataSize BlkLen) := by
      rw [← Nat.add_mul, hn4]
    have hS : 4 * (n / 4) * divRoundup CountK BlkLen
        + n % 4 * divRoundup CountK BlkLen
        = n * divRoundup CountK BlkLen := by
      rw [← Nat.add_mul, hn4]
    have hZ : 4 * (n / 4) * zpBytesSize (divRoundup CountK BlkLen)
        + n % 4 * zpBytesSize (divRoundup CountK BlkLen)
        = n * zpBytesSize (divRoundup CountK BlkLen) := by
      rw [← Nat.add_mul, hn4]
    rw [hD, hS, hZ, hn4]
  · rw [if_neg htile, cdp_fp32_flat _ _ _ _ _ _ _ _ _ _ _ _ _ _ _ _ hpos]
    simp only [Nat.mul_zero, Nat.add_zero, Nat.zero_mul]

/-- Witness for C1 at `BlkLen = 16`, `CountK = 4`, `CountN = 1`. -/
theorem m1kernel_fp32_witness :
    SQ4BitGemmM1Kernel_CompFp32 16 (fun _ => 1) (fun _ => 0) (fun _ => 1)
        (fun _ => 0) false 1 4 (divRoundup 4 16) none 0
      = ∑ k in Finset.range 4,
          (1 : ℚ) * (((subBlkNib 16 (fun _ => 0)
                  (0 * (divRoundup 4 16 * blkDataSize 16)
                    + k / 16 * blkDataSize 16) (k % 16) : Nat) : ℚ)
              - ((if false then
                  zpNib (fun y => (fun _ => 0) (0 * zpBytesSize (divRoundup 4 16) + y))
                    (k / 16)
                  else 8 : Nat) : ℚ))
            * 1 := by
  have h := m1kernel_fp32_formula 16 4 1 false (fun _ => 1) (fun _ => 0)
    (fun _ => 1) (fun _ => 0) none 0 (by norm_num) (by norm_num) (by norm_num)
  simpa [biasVal] using h

/-! ## CompInt8 kernels -/

/-- Sixteen-term signed integer dot product of A codes against the low nibbles of
16 packed B bytes, zero-point subtracted (`vdotq_s32` of an `int8x16`
against `vandq_u8(bv, 0x0F)` minus `bzp`; the four int32 lanes are summed by
the final `vaddvq_f32` fold, and cannot overflow). -/
def dotLo16 (aB : Nat → ℤ) (aOff : Nat) (bB : Nat → Nat) (bOff : Nat)
    (zp : ℤ) : ℤ :=
  ∑ e in Finset.range 16, aB (aOff + e) * ((nibLo (bB (bOff + e)) : ℤ) - zp)

/-- Like `dotLo16` for the high nibbles (`vshrq_n_u8(bv, 4)`). -/
def dotHi16 (aB : Nat → ℤ) (aOff : Nat) (bB : Nat → Nat) (bOff : Nat)
    (zp : ℤ) : ℤ :=
  ∑ e in Finset.range 16, aB (aOff + e) * ((nibHi (bB (bOff + e)) : ℤ) - zp)

/-- Dot product of 16 A codes against one `BlkLen == 16` packed block of 8 B
bytes: `vcombine_u8(vand_u8(bv, 0x0F), vshr_n_u8(bv, 4))` pairs A elements
0-7 with the low nibbles and 8-15 with the high nibbles. -/
def dotB16 (aB : Nat → ℤ) (aOff : Nat) (bB : Nat → Nat) (bOff : Nat)
    (zp : ℤ) : ℤ :=
  ∑ e in Finset.range 16,
    aB (aOff + e)
      * (((if e < 8 then nibLo (bB (bOff + e)) else nibHi (bB (bOff + (e - 8)))) : ℤ)
          - zp)

/-- Dot product of 32 A codes against one 32-wide sub-block of 16 packed B
bytes: A elements 0-15 pair with the low nibbles, 16-31 with the high
nibbles (two chained `vdotq_s32`). -/
def dotB32 (aB : Nat → ℤ) (aOff : Nat) (bB : Nat → Nat) (bOff : Nat)
    (zp : ℤ) : ℤ :=
  dotLo16 aB aOff bB bOff zp + dotHi16 aB (aOff + 16) bB bOff zp

/-- Source `SQ4BitGemm_CompInt8_Compute1x1_BlkLen16<HasZeroPoint>`: K blocks
processed in pairs (`k_blks_remaining > 1`), 16 B bytes per pair (low halves
= block `2p`, high halves = block `2p+1`, zero points from the shared byte
`zOff + p`), then an odd remainder block; dots are scaled by the product of
the A block scale and the B block scale and summed; bias added at the end. -/
def SQ4BitGemm_CompInt8_Compute1x1_BlkLen16 (BlockCountK : Nat) (hzp : Bool)
    (aS : Nat → ℚ) (aB : Nat → ℤ) (bB : Nat → Nat) (bS : Nat → ℚ)
    (bZ : Nat → Nat) (aOff bOff sOff zOff : Nat) (bias : Option (Nat → ℚ))
    (bIdx : Nat) : ℚ :=
  (∑ p in Finset.range (BlockCountK / 2),
      (((dotB16 aB (aOff + 2 * p * q8BlkSize 16 + 4) bB (bOff + 16 * p)
          (if hzp then (nibLo (bZ (zOff + p)) : ℤ) else 8) : ℤ) : ℚ)
        * (aS (aOff + 2 * p * q8BlkSize 16) * bS (sOff + 2 * p))
      + ((dotB16 aB (aOff + (2 * p + 1) * q8BlkSize 16 + 4) bB
          (bOff + 16 * p + 8)
          (if hzp then (nibHi (bZ (zOff + p)) : ℤ) else 8) : ℤ) : ℚ)
        * (aS (aOff + (2 * p + 1) * q8BlkSize 16) * bS (sOff + 2 * p + 1))))
  + (if BlockCountK % 2 = 1 then
      ((dotB16 aB (aOff + (BlockCountK - 1) * q8BlkSize 16 + 4) bB
          (bOff + 8 * (BlockCountK - 1))
          (if hzp then (nibLo (bZ (zOff + BlockCountK / 2)) : ℤ) else 8) : ℤ) : ℚ)
        * (aS (aOff + (BlockCountK - 1) * q8BlkSize 16)
            * bS (sOff + (BlockCountK - 1)))
    else 0)
  + biasVal bias bIdx

/-- Source `SQ4BitGemm_CompInt8_Compute1x1_BlkLen32<HasZeroPoint>`: same pairing
structure with 16 B bytes per block and 32-wide dots. -/
def SQ4BitGemm_CompInt8_Compute1x1_BlkLen32 (BlockCountK : Nat) (hzp : Bool)
    (aS : Nat → ℚ) (aB : Nat → ℤ) (bB : Nat → Nat) (bS : Nat → ℚ)
    (bZ : Nat → Nat) (aOff bOff sOff zOff : Nat) (bias : Option (Nat → ℚ))
    (bIdx : Nat) : ℚ :=
  (∑ p in Finset.range (BlockCountK / 2),
      (((dotB32 aB (aOff + 2 * p * q8BlkSize 32 + 4) bB (bOff + 32 * p)
          (if hzp then (nibLo (bZ (zOff + p)) : ℤ) else 8) : ℤ) : ℚ)
        * (aS (aOff + 2 * p * q8BlkSize 32) * bS (sOff + 2 * p))
      + ((dotB32 aB (aOff + (2 * p + 1) * q8BlkSize 32 + 4) bB
          (bOff + 32 * p + 16)
          (if hzp then (nibHi (bZ (zOff + p)) : ℤ) else 8) : ℤ) : ℚ)
        * (aS (aOff + (2 * p + 1) * q8BlkSize 32) * bS (sOff + 2 * p + 1))))
  + (if BlockCountK % 2 = 1 then
      ((dotB32 aB (aOff + (BlockCountK - 1) * q8BlkSize 32 + 4) bB
          (bOff + 16 * (BlockCountK - 1))
          (if hzp then (nibLo (bZ (zOff + BlockCountK / 2)) : ℤ) else 8) : ℤ) : ℚ)
        * (aS (aOff + (BlockCountK - 1) * q8BlkSize 32)
            * bS (sOff + (BlockCountK - 1)))
    else 0)
  + biasVal bias bIdx

/-- Source `SQ4BitGemm_CompInt8_Compute1x1_BlkLenGreaterThan32<HasZeroPoint>`: per
K block, the sub-block loop steps `sub_blk_idx += 2`, consuming 64 A bytes
and 32 B bytes per iteration (`ceil(SubBlksPerBlk / 2)` iterations, so the B
pointer advances `32 * ceil((BlkLen/32) / 2)` bytes per block), and the zero
point is always read from the low nibble of the byte at `zOff + blk / 2`
(the pointer advances after odd blocks but the high nibble is never
selected). -/
def SQ4BitGemm_CompInt8_Compute1x1_BlkLenGreaterThan32 (BlkLen BlockCountK : Nat)
    (hzp : Bool) (aS : Nat → ℚ) (aB : Nat → ℤ) (bB : Nat → Nat) (bS : Nat → ℚ)
    (bZ : Nat → Nat) (aOff bOff sOff zOff : Nat) (bias : Option (Nat → ℚ))
    (bIdx : Nat) : ℚ :=
  (∑ blk in Finset.range BlockCountK,
    ∑ i in Finset.range (divRoundup (BlkLen / 32) 2),
      ((dotB32 aB (aOff + blk * q8BlkSize BlkLen + 4 + 64 * i) bB
          (bOff + blk * (32 * divRoundup (BlkLen / 32) 2) + 32 * i)
          (if hzp then (nibLo (bZ (zOff + blk / 2)) : ℤ) else 8)
        + dotB32 aB (aOff + blk * q8BlkSize BlkLen + 4 + 64 * i + 32) bB
          (bOff + blk * (32 * divRoundup (BlkLen / 32) 2) + 32 * i + 16)
          (if hzp then (nibLo (bZ (zOff + blk / 2)) : ℤ) else 8) : ℤ) : ℚ)
        * (aS (aOff + blk * q8BlkSize BlkLen) * bS (sOff + blk)))
  + biasVal bias bIdx

/-- Source `SQ4BitGemm_CompInt8_Compute2x2_BlkLen16<HasZeroPoint>`, the value of
micro-tile element `(r, c)` (`r, c ∈ {0, 1}`): per K block, 8 B bytes per
column (columns `c` apart by `StrideQuantBData`), zero-point byte
`zOff + c * strZ + blk / 2` with the low nibble for even `blk` and the high
nibble for odd `blk`; bias element `c` is added to both rows. -/
def SQ4BitGemm_CompInt8_Compute2x2_BlkLen16 (BlockCountK : Nat) (hzp : Bool)
    (aS : Nat → ℚ) (aB : Nat → ℤ) (bB : Nat → Nat) (bS : Nat → ℚ)
    (bZ : Nat → Nat) (aOff bOff sOff zOff strA strBD strS strZ : Nat)
    (bias : Option (Nat → ℚ)) (bIdx r c : Nat) : ℚ :=
  (∑ blk in Finset.range BlockCountK,
    ((dotB16 aB (aOff + r * strA + blk * q8BlkSize 16 + 4) bB
        (bOff + c * strBD + 8 * blk)
        (if hzp then
          (if blk % 2 = 0 then (nibLo (bZ (zOff + c * strZ + blk / 2)) : ℤ)
            else (nibHi (bZ (zOff + c * strZ + blk / 2)) : ℤ))
          else 8) : ℤ) : ℚ)
      * (aS (aOff + r * strA + blk * q8BlkSize 16) * bS (sOff + c * strS + blk)))
  + biasVal bias (bIdx + c)

/-- Source `SQ4BitGemm_CompInt8_Compute2x2_BlkLenGreaterThan16<HasZeroPoint>`,
element `(r, c)`: per K block, `BlkLen / 32` sub-blocks of 32 (the B pointer
advances 16 bytes per sub-block across the whole column), zero point by
block parity as in the 16-wide variant. -/
def SQ4BitGemm_CompInt8_Compute2x2_BlkLenGreaterThan16 (BlkLen BlockCountK : Nat)
    (hzp : Bool) (aS : Nat → ℚ) (aB : Nat → ℤ) (bB : Nat → Nat) (bS : Nat → ℚ)
    (bZ : Nat → Nat) (aOff bOff sOff zOff strA strBD strS strZ : Nat)
    (bias : Option (Nat → ℚ)) (bIdx r c : Nat) : ℚ :=
  (∑ blk in Finset.range BlockCountK,
    ∑ i in Finset.range (BlkLen / 32),
      ((dotB32 aB (aOff + r * strA + blk * q8BlkSize BlkLen + 4 + 32 * i) bB
          (bOff + c * strBD + 16 * (blk * (BlkLen / 32) + i))
          (if hzp then
            (if blk % 2 = 0 then (nibLo (bZ (zOff + c * strZ + blk / 2)) : ℤ)
              else (nibHi (bZ (zOff + c * strZ + blk / 2)) : ℤ))
            else 8) : ℤ) : ℚ)
        * (aS (aOff + r * strA + blk * q8BlkSize BlkLen)
            * bS (sOff + c * strS + blk)))
  + biasVal bias (bIdx + c)

/-- Source `SQ4BitGemmKernel_CompInt8_BlkLen16<HasZeroPoint>` as a map from output
position `(m, n)` to the value stored at `C[m * ldc + n]`: row pairs are
processed by 2x2 tiles over column pairs with a trailing 2x1 column handled
by two 1x1 calls, and a trailing odd row entirely by 1x1 tiles. -/
def SQ4BitGemmKernel_CompInt8_BlkLen16 (BlockCountK CountM CountN : Nat)
    (hzp : Bool) (aS : Nat → ℚ) (aB : Nat → ℤ) (bB : Nat → Nat) (bS : Nat → ℚ)
    (bZ : Nat → Nat) (bias : Option (Nat → ℚ)) (m n : Nat) : ℚ :=
  if m < 2 * (CountM / 2) then
    (if n < 2 * (CountN / 2) then
      SQ4BitGemm_CompInt8_Compute2x2_BlkLen16 BlockCountK hzp aS aB bB bS bZ
        (2 * (m / 2) * (BlockCountK * q8BlkSize 16))
        (2 * (n / 2) * (BlockCountK * blkDataSize 16))
        (2 * (n / 2) * BlockCountK)
        (2 * (n / 2) * zpBytesSize BlockCountK)
        (BlockCountK * q8BlkSize 16) (BlockCountK * blkDataSize 16)
        BlockCountK (zpBytesSize BlockCountK)
        bias (2 * (n / 2)) (m % 2) (n % 2)
    else
      SQ4BitGemm_CompInt8_Compute1x1_BlkLen16 BlockCountK hzp aS aB bB bS bZ
        (2 * (m / 2) * (BlockCountK * q8BlkSize 16)
          + m % 2 * (BlockCountK * q8BlkSize 16))
        (2 * (CountN / 2) * (BlockCountK * blkDataSize 16))
        (2 * (CountN / 2) * BlockCountK)
        (2 * (CountN / 2) * zpBytesSize BlockCountK)
        bias (2 * (CountN / 2)))
  else
    SQ4BitGemm_CompInt8_Compute1x1_BlkLen16 BlockCountK hzp aS aB bB bS bZ
      (2 * (CountM / 2) * (BlockCountK * q8BlkSize 16))
      (n * (BlockCountK * blkDataSize 16))
      (n * BlockCountK)
      (n * zpBytesSize BlockCountK)
      bias n

/-- Source `SQ4BitGemmKernel_CompInt8_BlkLen32<HasZeroPoint>`: same tiling with the
`BlkLenGreaterThan16` 2x2 tile at `BlkLen = 32` and the `BlkLen32` 1x1
tile. -/
def SQ4BitGemmKernel_CompInt8_BlkLen32 (BlockCountK CountM CountN : Nat)
    (hzp : Bool) (aS : Nat → ℚ) (aB : Nat → ℤ) (bB : Nat → Nat) (bS : Nat → ℚ)
    (bZ : Nat → Nat) (bias : Option (Nat → ℚ)) (m n : Nat) : ℚ :=
  if m < 2 * (CountM / 2) then
    (if n < 2 * (CountN / 2) then
      SQ4BitGemm_CompInt8_Compute2x2_BlkLenGreaterThan16 32 BlockCountK hzp
        aS aB bB bS bZ
        (2 * (m / 2) * (BlockCountK * q8BlkSize 32))
        (2 * (n / 2) * (BlockCountK * blkDataSize 32))
        (2 * (n / 2) * BlockCountK)
        (2 * (n / 2) * zpBytesSize BlockCountK)
        (BlockCountK * q8BlkSize 32) (BlockCountK * blkDataSize 32)
        BlockCountK (zpBytesSize BlockCountK)
        bias (2 * (n / 2)) (m % 2) (n % 2)
    else
      SQ4BitGemm_CompInt8_Compute1x1_BlkLen32 BlockCountK hzp aS aB bB bS bZ
        (2 * (m / 2) * (BlockCountK * q8BlkSize 32)
          + m % 2 * (BlockCountK * q8BlkSize 32))
        (2 * (CountN / 2) * (BlockCountK * blkDataSize 32))
        (2 * (CountN / 2) * BlockCountK)
        (2 * (CountN / 2) * zpBytesSize BlockCountK)
        bias (2 * (CountN / 2)))
  else
    SQ4BitGemm_CompInt8_Compute1x1_BlkLen32 BlockCountK hzp aS aB bB bS bZ
      (2 * (CountM / 2) * (BlockCountK * q8BlkSize 32))
      (n * (BlockCountK * blkDataSize 32))
      (n * BlockCountK)
      (n * zpBytesSize BlockCountK)
      bias n

/-- Source `SQ4BitGemmKernel_CompInt8_BlkLenGreaterThan32<HasZeroPoint>`. -/
def SQ4BitGemmKernel_CompInt8_BlkLenGreaterThan32 (BlkLen BlockCountK CountM CountN : Nat)
    (hzp : Bool) (aS : Nat → ℚ) (aB : Nat → ℤ) (bB : Nat → Nat) (bS : Nat → ℚ)
    (bZ : Nat → Nat) (bias : Option (Nat → ℚ)) (m n : Nat) : ℚ :=
  if m < 2 * (CountM / 2) then
    (if n < 2 * (CountN / 2) then
      SQ4BitGemm_CompInt8_Compute2x2_BlkLenGreaterThan16 BlkLen BlockCountK hzp
        aS aB bB bS bZ
        (2 * (m / 2) * (BlockCountK * q8BlkSize BlkLen))
        (2 * (n / 2) * (BlockCountK * blkDataSize BlkLen))
        (2 * (n / 2) * BlockCountK)
        (2 * (n / 2) * zpBytesSize BlockCountK)
        (BlockCountK * q8BlkSize BlkLen) (BlockCountK * blkDataSize BlkLen)
        BlockCountK (zpBytesSize BlockCountK)
        bias (2 * (n / 2)) (m % 2) (n % 2)
    else
      SQ4BitGemm_CompInt8_Compute1x1_BlkLenGreaterThan32 BlkLen BlockCountK hzp
        aS aB bB bS bZ
        (2 * (m / 2) * (BlockCountK * q8BlkSize BlkLen)
          + m % 2 * (BlockCountK * q8BlkSize BlkLen))
        (2 * (CountN / 2) * (BlockCountK * blkDataSize BlkLen))
        (2 * (CountN / 2) * BlockCountK)
        (2 * (CountN / 2) * zpBytesSize BlockCountK)
        bias (2 * (CountN / 2)))
  else
    SQ4BitGemm_CompInt8_Compute1x1_BlkLenGreaterThan32 BlkLen BlockCountK hzp
      aS aB bB bS bZ
      (2 * (CountM / 2) * (BlockCountK * q8BlkSize BlkLen))
      (n * (BlockCountK * blkDataSize BlkLen))
      (n * BlockCountK)
      (n * zpBytesSize BlockCountK)
      bias n

/-- Source `SQ4BitGemmKernel_CompInt8_DispatchOnBlkLen<HasZeroPoint>`. -/
def SQ4BitGemmKernel_CompInt8_DispatchOnBlkLen (BlkLen BlockCountK CountM CountN : Nat)
    (hzp : Bool) (aS : Nat → ℚ) (aB : Nat → ℤ) (bB : Nat → Nat) (bS : Nat → ℚ)
    (bZ : Nat → Nat) (bias : Option (Nat → ℚ)) (m n : Nat) : ℚ :=
  if BlkLen = 16 then
    SQ4BitGemmKernel_CompInt8_BlkLen16 BlockCountK CountM CountN hzp
      aS aB bB bS bZ bias m n
  else if BlkLen = 32 then
    SQ4BitGemmKernel_CompInt8_BlkLen32 BlockCountK CountM CountN hzp
      aS aB bB bS bZ bias m n
  else
    SQ4BitGemmKernel_CompInt8_BlkLenGreaterThan32 BlkLen BlockCountK CountM CountN
      hzp aS aB bB bS bZ bias m n

/-- Source `SQ4BitGemmKernel_CompInt8`: dispatches on the presence of the
zero-point pointer (`hzp`) and on `BlkLen`, producing the output map and the
function's return value (the number of rows processed). -/
def SQ4BitGemmKernel_CompInt8 (BlkLen : Nat) (aS : Nat → ℚ) (aB : Nat → ℤ)
    (bB : Nat → Nat) (bS : Nat → ℚ) (bZ : Nat → Nat) (hzp : Bool)
    (CountM CountN BlockCountK : Nat) (bias : Option (Nat → ℚ)) :
    (Nat → Nat → ℚ) × Nat :=
  (fun m n =>
    SQ4BitGemmKernel_CompInt8_DispatchOnBlkLen BlkLen BlockCountK CountM CountN
      hzp aS aB bB bS bZ bias m n,
   CountM)

/-- Packed-B nibble read used by the int8 kernels: the 16-wide sub-block
interleave for `BlkLen == 16` and the 32-wide interleave otherwise (matching
the packing routine's `SubBlkLen` choice for `CompInt8`). -/
def int8PackedNib (BlkLen : Nat) (bB : Nat → Nat) (base j : Nat) : Nat :=
  subBlkNib (if BlkLen = 16 then 16 else 32) bB base j

/-- The reference value of one int8-mode output element: the sum over K
blocks of the int32 dot product of the A block's int8 codes with the B
block's 4-bit codes widened and zero-point-subtracted to signed int8
(default zero point 8; packed zero point per the even-low / odd-high
convention), converted to rational and scaled by the product of the per-block
A and B scales. -/
def refInt8 (BlkLen BlockCountK : Nat) (hzp : Bool) (aS : Nat → ℚ)
    (aB : Nat → ℤ) (bB : Nat → Nat) (bS : Nat → ℚ) (bZ : Nat → Nat)
    (aOff bOff sOff zOff : Nat) : ℚ :=
  ∑ blk in Finset.range BlockCountK,
    ((∑ j in Finset.range BlkLen,
        aB (aOff + blk * q8BlkSize BlkLen + 4 + j)
          * ((int8PackedNib BlkLen bB (bOff + blk * blkDataSize BlkLen) j : ℤ)
              - (if hzp then (zpNib (fun y => bZ (zOff + y)) blk : ℤ) else 8)) : ℤ) : ℚ)
      * (aS (aOff + blk * q8BlkSize BlkLen) * bS (sOff + blk))

theorem dotB16_eq (aB : Nat → ℤ) (aOff : Nat) (bB : Nat → Nat) (bOff : Nat)
    (zp : ℤ) :
    dotB16 aB aOff bB bOff zp
      = ∑ j in Finset.range 16,
          aB (aOff + j) * ((subBlkNib 16 bB bOff j : ℤ) - zp) := by
  unfold dotB16 subBlkNib
  refine Finset.sum_congr rfl (fun e he => ?_)
  rw [Finset.mem_range] at he
  by_cases h8 : e < 8
  · rw [if_pos h8, if_pos (show e % 16 < 16 / 2 by omega)]
    have harg : bOff + e / 16 * (16 / 2) + e % 16 = bOff + e := by omega
    rw [harg]
  · rw [if_neg h8, if_neg (show ¬e % 16 < 16 / 2 by omega)]
    have harg : bOff + e / 16 * (16 / 2) + e % 16 - 16 / 2 = bOff + (e - 8) := by
      omega
    rw [harg]

theorem dotB32_eq (aB : Nat → ℤ) (aOff : Nat) (bB : Nat → Nat) (bOff : Nat)
    (zp : ℤ) :
    dotB32 aB aOff bB bOff zp
      = ∑ j in Finset.range 32,
          aB (aOff + j) * ((subBlkNib 32 bB bOff j : ℤ) - zp) := by
  unfold dotB32 dotLo16 dotHi16
  rw [show Finset.range 32 = Finset.range (16 + 16) from rfl,
    Finset.sum_range_add]
  congr 1

theorem subBlkNib32_shift (bB : Nat → Nat) (base i e : Nat) (he : e < 32) :
    subBlkNib 32 bB (base + 16 * i) e = subBlkNib 32 bB base (i * 32 + e) := by
  unfold subBlkNib
  have hm : (i * 32 + e) % 32 = e % 32 := by omega
  have hd : (i * 32 + e) / 32 = i := by omega
  rw [hm, hd]
  split_ifs with h
  · congr 2
    omega
  · congr 2
    omega

/-- Sub-blocks of 32 stepped through a block: summing the per-sub-block dots
equals the flat dot over the block's logical positions. -/
theorem block32_dots (n : Nat) (aB : Nat → ℤ) (bB : Nat → Nat)
    (aOff bOff : Nat) (zp : ℤ) :
    ∑ i in Finset.range n, dotB32 aB (aOff + 32 * i) bB (bOff + 16 * i) zp
      = ∑ j in Finset.range (n * 32),
          aB (aOff + j) * ((subBlkNib 32 bB bOff j : ℤ) - zp) := by
  have h1 : ∀ i, dotB32 aB (aOff + 32 * i) bB (bOff + 16 * i) zp
      = ∑ e in Finset.range 32,
          aB (aOff + (i * 32 + e)) * ((subBlkNib 32 bB bOff (i * 32 + e) : ℤ) - zp) := by
    intro i
    rw [dotB32_eq]
    refine Finset.sum_congr rfl (fun e he => ?_)
    rw [Finset.mem_range] at he
    rw [subBlkNib32_shift bB bOff i e he]
    have ha : aOff + 32 * i + e = aOff + (i * 32 + e) := by omega
    rw [ha]
  simp only [h1]
  exact sum_range_tiles
    (fun j => aB (aOff + j) * ((subBlkNib 32 bB bOff j : ℤ) - zp)) 32 n

theorem zp_ite_cast (hzp : Bool) (bZ : Nat → Nat) (z blk : Nat) :
    (if hzp then
      (if blk % 2 = 0 then (nibLo (bZ (z + blk / 2)) : ℤ)
        else (nibHi (bZ (z + blk / 2)) : ℤ))
      else 8)
      = (if hzp then (zpNib (fun y => bZ (z + y)) blk : ℤ) else 8) := by
  cases hzp
  · rfl
  · by_cases hb : blk % 2 = 0 <;> simp [zpNib, hb]

theorem c2x2_b16_eq (BCK : Nat) (hzp : Bool) (aS : Nat → ℚ) (aB : Nat → ℤ)
    (bB : Nat → Nat) (bS : Nat → ℚ) (bZ : Nat → Nat)
    (aOff bOff sOff zOff strA strBD strS strZ : Nat) (bias : Option (Nat → ℚ))
    (bIdx r c : Nat) :
    SQ4BitGemm_CompInt8_Compute2x2_BlkLen16 BCK hzp aS aB bB bS bZ
        aOff bOff sOff zOff strA strBD strS strZ bias bIdx r c
      = refInt8 16 BCK hzp aS aB bB bS bZ (aOff + r * strA) (bOff + c * strBD)
          (sOff + c * strS) (zOff + c * strZ)
        + biasVal bias (bIdx + c) := by
  unfold SQ4BitGemm_CompInt8_Compute2x2_BlkLen16 refInt8
  congr 1
  refine Finset.sum_congr rfl (fun blk hblk => ?_)
  rw [dotB16_eq, zp_ite_cast hzp bZ (zOff + c * strZ) blk]
  have hb8 : bOff + c * strBD + 8 * blk
      = bOff + c * strBD + blk * blkDataSize 16 := by
    show _ = bOff + c * strBD + blk * 8
    ring
  rw [hb8]
  have hnib : ∀ j, int8PackedNib 16 bB (bOff + c * strBD + blk * blkDataSize 16) j
      = subBlkNib 16 bB (bOff + c * strBD + blk * blkDataSize 16) j :=
    fun _ => rfl
  simp only [hnib]

theorem c2x2_gt16_eq (BlkLen BCK : Nat) (hzp : Bool) (aS : Nat → ℚ)
    (aB : Nat → ℤ) (bB : Nat → Nat) (bS : Nat → ℚ) (bZ : Nat → Nat)
    (aOff bOff sOff zOff strA strBD strS strZ : Nat) (bias : Option (Nat → ℚ))
    (bIdx r c : Nat) (hdvd : 32 ∣ BlkLen) :
    SQ4BitGemm_CompInt8_Compute2x2_BlkLenGreaterThan16 BlkLen BCK hzp
        aS aB bB bS bZ aOff bOff sOff zOff strA strBD strS strZ bias bIdx r c
      = refInt8 BlkLen BCK hzp aS aB bB bS bZ (aOff + r * strA)
          (bOff + c * strBD) (sOff + c * strS) (zOff + c * strZ)
        + biasVal bias (bIdx + c) := by
  obtain ⟨t, ht⟩ := hdvd
  subst ht
  unfold SQ4BitGemm_CompInt8_Compute2x2_BlkLenGreaterThan16 refInt8
  congr 1
  refine Finset.sum_congr rfl (fun blk hblk => ?_)
  have hT : 32 * t / 32 = t := by omega
  have hBD : blkDataSize (32 * t) = 16 * t := by
    unfold blkDataSize
    omega
  simp only [hT]
  have hb : ∀ i, bOff + c * strBD + 16 * (blk * t + i)
      = bOff + c * strBD + blk * blkDataSize (32 * t) + 16 * i := by
    intro i
    rw [hBD]
    ring
  simp only [hb, zp_ite_cast hzp bZ (zOff + c * strZ) blk]
  rw [← Finset.sum_mul, ← Int.cast_sum,
    block32_dots t aB bB (aOff + r * strA + blk * q8BlkSize (32 * t) + 4)
      (bOff + c * strBD + blk * blkDataSize (32 * t))
      (if hzp then (zpNib (fun y => bZ (zOff + c * strZ + y)) blk : ℤ) else 8),
    Nat.mul_comm t 32]
  have hnib : ∀ base j, int8PackedNib (32 * t) bB base j = subBlkNib 32 bB base j := by
    intro base j
    unfold int8PackedNib
    rw [if_neg (by omega)]
  simp only [hnib]

theorem zpNib_even (bZ : Nat → Nat) (z p : Nat) :
    zpNib (fun y => bZ (z + y)) (2 * p) = nibLo (bZ (z + p)) := by
  unfold zpNib
  rw [if_pos (by omega), show 2 * p / 2 = p from by omega]

theorem zpNib_odd (bZ : Nat → Nat) (z p : Nat) :
    zpNib (fun y => bZ (z + y)) (2 * p + 1) = nibHi (bZ (z + p)) := by
  unfold zpNib
  rw [if_neg (by omega), show (2 * p + 1) / 2 = p from by omega]

theorem zpNib_last (bZ : Nat → Nat) (z n : Nat) (h : n % 2 = 1) :
    zpNib (fun y => bZ (z + y)) (n - 1) = nibLo (bZ (z + n / 2)) := by
  unfold zpNib
  rw [if_pos (by omega), show (n - 1) / 2 = n / 2 from by omega]

theorem c1x1_b16_eq (BCK : Nat) (hzp : Bool) (aS : Nat → ℚ) (aB : Nat → ℤ)
    (bB : Nat → Nat) (bS : Nat → ℚ) (bZ : Nat → Nat)
    (aOff bOff sOff zOff : Nat) (bias : Option (Nat → ℚ)) (bIdx : Nat) :
    SQ4BitGemm_CompInt8_Compute1x1_BlkLen16 BCK hzp aS aB bB bS bZ
        aOff bOff sOff zOff bias bIdx
      = refInt8 16 BCK hzp aS aB bB bS bZ aOff bOff sOff zOff
        + biasVal bias bIdx := by
  unfold SQ4BitGemm_CompInt8_Compute1x1_BlkLen16 refInt8
  simp only [show ∀ (bB : Nat → Nat) (base j : Nat),
      int8PackedNib 16 bB base j = subBlkNib 16 bB base j from fun _ _ _ => rfl]
  rw [← pair_sum (fun blk =>
      ((∑ j in Finset.range 16,
          aB (aOff + blk * q8BlkSize 16 + 4 + j)
            * ((subBlkNib 16 bB (bOff + blk * blkDataSize 16) j : ℤ)
                - (if hzp then (zpNib (fun y => bZ (zOff + y)) blk : ℤ)
                  else 8)) : ℤ) : ℚ)
        * (aS (aOff + blk * q8BlkSize 16) * bS (sOff + blk))) BCK]
  congr 1
  congr 1
  · refine Finset.sum_congr rfl (fun p hp => ?_)
    congr 1
    · rw [dotB16_eq, ← zpNib_even bZ zOff p,
        show bOff + 16 * p = bOff + 2 * p * blkDataSize 16 from by
          show bOff + 16 * p = bOff + 2 * p * 8
          ring]
    · rw [dotB16_eq, ← zpNib_odd bZ zOff p,
        show bOff + 16 * p + 8 = bOff + (2 * p + 1) * blkDataSize 16 from by
          show bOff + 16 * p + 8 = bOff + (2 * p + 1) * 8
          ring,
        show sOff + 2 * p + 1 = sOff + (2 * p + 1) from by omega]
  · by_cases hodd : BCK % 2 = 1
    · rw [if_pos hodd, if_pos hodd, dotB16_eq, ← zpNib_last bZ zOff BCK hodd,
        show bOff + 8 * (BCK - 1) = bOff + (BCK - 1) * blkDataSize 16 from by
          show bOff + 8 * (BCK - 1) = bOff + (BCK - 1) * 8
          ring]
    · rw [if_neg hodd, if_neg hodd]

theorem c1x1_b32_eq (BCK : Nat) (hzp : Bool) (aS : Nat → ℚ) (aB : Nat → ℤ)
    (bB : Nat → Nat) (bS : Nat → ℚ) (bZ : Nat → Nat)
    (aOff bOff sOff zOff : Nat) (bias : Option (Nat → ℚ)) (bIdx : Nat) :
    SQ4BitGemm_CompInt8_Compute1x1_BlkLen32 BCK hzp aS aB bB bS bZ
        aOff bOff sOff zOff bias bIdx
      = refInt8 32 BCK hzp aS aB bB bS bZ aOff bOff sOff zOff
        + biasVal bias bIdx := by
  unfold SQ4BitGemm_CompInt8_Compute1x1_BlkLen32 refInt8
  simp only [show ∀ (bB : Nat → Nat) (base j : Nat),
      int8PackedNib 32 bB base j = subBlkNib 32 bB base j from fun _ _ _ => rfl]
  rw [← pair_sum (fun blk =>
      ((∑ j in Finset.range 32,
          aB (aOff + blk * q8BlkSize 32 + 4 + j)
            * ((subBlkNib 32 bB (bOff + blk * blkDataSize 32) j : ℤ)
                - (if hzp then (zpNib (fun y => bZ (zOff + y)) blk : ℤ)
                  else 8)) : ℤ) : ℚ)
        * (aS (aOff + blk * q8BlkSize 32) * bS (sOff + blk))) BCK]
  congr 1
  congr 1
  · refine Finset.sum_congr rfl (fun p hp => ?_)
    congr 1
    · rw [dotB32_eq, ← zpNib_even bZ zOff p,
        show bOff + 32 * p = bOff + 2 * p * blkDataSize 32 from by
          show bOff + 32 * p = bOff + 2 * p * 16
          ring]
    · rw [dotB32_eq, ← zpNib_odd bZ zOff p,
        show bOff + 32 * p + 16 = bOff + (2 * p + 1) * blkDataSize 32 from by
          show bOff + 32 * p + 16 = bOff + (2 * p + 1) * 16
          ring,
        show sOff + 2 * p + 1 = sOff + (2 * p + 1) from by omega]
  · by_cases hodd : BCK % 2 = 1
    · rw [if_pos hodd, if_pos hodd, dotB32_eq, ← zpNib_last bZ zOff BCK hodd,
        show bOff + 16 * (BCK - 1) = bOff + (BCK - 1) * blkDataSize 32 from by
          show bOff + 16 * (BCK - 1) = bOff + (BCK - 1) * 16
          ring]
    · rw [if_neg hodd, if_neg hodd]

theorem c1x1_gt32_eq (BlkLen BCK : Nat) (aS : Nat → ℚ) (aB : Nat → ℤ)
    (bB : Nat → Nat) (bS : Nat → ℚ) (bZ : Nat → Nat)
    (aOff bOff sOff zOff : Nat) (bias : Option (Nat → ℚ)) (bIdx : Nat)
    (hdvd : 64 ∣ BlkLen) :
    SQ4BitGemm_CompInt8_Compute1x1_BlkLenGreaterThan32 BlkLen BCK false
        aS aB bB bS bZ aOff bOff sOff zOff bias bIdx
      = refInt8 BlkLen BCK false aS aB bB bS bZ aOff bOff sOff zOff
        + biasVal bias bIdx := by
  obtain ⟨t, ht⟩ := hdvd
  subst ht
  unfold SQ4BitGemm_CompInt8_Compute1x1_BlkLenGreaterThan32 refInt8
  simp only [Bool.false_eq_true, if_false]
  congr 1
  refine Finset.sum_congr rfl (fun blk hblk => ?_)
  have h1 : 64 * t / 32 = 2 * t := by omega
  have h2 : divRoundup (2 * t) 2 = t := by
    unfold divRoundup
    omega
  have hbd : blkDataSize (64 * t) = 32 * t := by
    unfold blkDataSize
    omega
  simp only [h1, h2, hbd]
  rw [← Finset.sum_mul, ← Int.cast_sum]
  congr 2
  trans (∑ s in Finset.range (2 * t),
      dotB32 aB (aOff + blk * q8BlkSize (64 * t) + 4 + 32 * s) bB
        (bOff + blk * (32 * t) + 16 * s) 8)
  · rw [← pair_sum (fun s =>
        dotB32 aB (aOff + blk * q8BlkSize (64 * t) + 4 + 32 * s) bB
          (bOff + blk * (32 * t) + 16 * s) 8) (2 * t),
      show 2 * t / 2 = t from by omega]
    rw [show 2 * t % 2 = 0 from by omega]
    norm_num
    refine Finset.sum_congr rfl (fun i hi => ?_)
    congr 2
    · omega
    · omega
    · omega
    · omega
  · have hkey := block32_dots (2 * t) aB bB
      (aOff + blk * q8BlkSize (64 * t) + 4) (bOff + blk * (32 * t)) 8
    rw [hkey, show 2 * t * 32 = 64 * t from by ring]
    refine Finset.sum_congr rfl (fun j hj => ?_)
    have hnib : int8PackedNib (64 * t) bB (bOff + blk * (32 * t)) j
        = subBlkNib 32 bB (bOff + blk * (32 * t)) j := by
      unfold int8PackedNib
      rw [if_neg (by omega)]
    rw [hnib]

theorem kernel_b16_formula (BCK CountM CountN : Nat) (hzp : Bool)
    (aS : Nat → ℚ) (aB : Nat → ℤ) (bB : Nat → Nat) (bS : Nat → ℚ)
    (bZ : Nat → Nat) (bias : Option (Nat → ℚ)) (m n : Nat)
    (hm : m < CountM) (hn : n < CountN) :
    SQ4BitGemmKernel_CompInt8_BlkLen16 BCK CountM CountN hzp aS aB bB bS bZ
        bias m n
      = refInt8 16 BCK hzp aS aB bB bS bZ (m * (BCK * q8BlkSize 16))
          (n * (BCK * blkDataSize 16)) (n * BCK) (n * zpBytesSize BCK)
        + biasVal bias n := by
  unfold SQ4BitGemmKernel_CompInt8_BlkLen16
  by_cases hm2 : m < 2 * (CountM / 2)
  · rw [if_pos hm2]
    by_cases hn2 : n < 2 * (CountN / 2)
    · rw [if_pos hn2, c2x2_b16_eq]
      have hA : 2 * (m / 2) * (BCK * q8BlkSize 16) + m % 2 * (BCK * q8BlkSize 16)
          = m * (BCK * q8BlkSize 16) := by
        rw [← Nat.add_mul]
        congr 1
        omega
      have hB : 2 * (n / 2) * (BCK * blkDataSize 16)
            + n % 2 * (BCK * blkDataSize 16)
          = n * (BCK * blkDataSize 16) := by
        rw [← Nat.add_mul]
        congr 1
        omega
      have hS : 2 * (n / 2) * BCK + n % 2 * BCK = n * BCK := by
        rw [← Nat.add_mul]
        congr 1
        omega
      have hZ : 2 * (n / 2) * zpBytesSize BCK + n % 2 * zpBytesSize BCK
          = n * zpBytesSize BCK := by
        rw [← Nat.add_mul]
        congr 1
        omega
      have hbias : 2 * (n / 2) + n % 2 = n := by omega
      rw [hA, hB, hS, hZ, hbias]
    · rw [if_neg hn2, c1x1_b16_eq]
      have hn' : 2 * (CountN / 2) = n := by omega
      have hA : 2 * (m / 2) * (BCK * q8BlkSize 16) + m % 2 * (BCK * q8BlkSize 16)
          = m * (BCK * q8BlkSize 16) := by
        rw [← Nat.add_mul]
        congr 1
        omega
      rw [hn', hA]
  · rw [if_neg hm2, c1x1_b16_eq]
    have hm' : 2 * (CountM / 2) = m := by omega
    rw [hm']

theorem kernel_b32_formula (BCK CountM CountN : Nat) (hzp : Bool)
    (aS : Nat → ℚ) (aB : Nat → ℤ) (bB : Nat → Nat) (bS : Nat → ℚ)
    (bZ : Nat → Nat) (bias : Option (Nat → ℚ)) (m n : Nat)
    (hm : m < CountM) (hn : n < CountN) :
    SQ4BitGemmKernel_CompInt8_BlkLen32 BCK CountM CountN hzp aS aB bB bS bZ
        bias m n
      = refInt8 32 BCK hzp aS aB bB bS bZ (m * (BCK * q8BlkSize 32))
          (n * (BCK * blkDataSize 32)) (n * BCK) (n * zpBytesSize BCK)
        + biasVal bias n := by
  unfold SQ4BitGemmKernel_CompInt8_BlkLen32
  by_cases hm2 : m < 2 * (CountM / 2)
  · rw [if_pos hm2]
    by_cases hn2 : n < 2 * (CountN / 2)
    · rw [if_pos hn2, c2x2_gt16_eq _ _ _ _ _ _ _ _ _ _ _ _ _ _ _ _ _ _ _ _
        (by norm_num)]
      have hA : 2 * (m / 2) * (BCK * q8BlkSize 32) + m % 2 * (BCK * q8BlkSize 32)
          = m * (BCK * q8BlkSize 32) := by
        rw [← Nat.add_mul]
        congr 1
        omega
      have hB : 2 * (n / 2) * (BCK * blkDataSize 32)
            + n % 2 * (BCK * blkDataSize 32)
          = n * (BCK * blkDataSize 32) := by
        rw [← Nat.add_mul]
        congr 1
        omega
      have hS : 2 * (n / 2) * BCK + n % 2 * BCK = n * BCK := by
        rw [← Nat.add_mul]
        congr 1
        omega
      have hZ : 2 * (n / 2) * zpBytesSize BCK + n % 2 * zpBytesSize BCK
          = n * zpBytesSize BCK := by
        rw [← Nat.add_mul]
        congr 1
        omega
      have hbias : 2 * (n / 2) + n % 2 = n := by omega
      rw [hA, hB, hS, hZ, hbias]
    · rw [if_neg hn2, c1x1_b32_eq]
      have hn' : 2 * (CountN / 2) = n := by omega
      have hA : 2 * (m / 2) * (BCK * q8BlkSize 32) + m % 2 * (BCK * q8BlkSize 32)
          = m * (BCK * q8BlkSize 32) := by
        rw [← Nat.add_mul]
        congr 1
        omega
      rw [hn', hA]
  · rw [if_neg hm2, c1x1_b32_eq]
    have hm' : 2 * (CountM / 2) = m := by omega
    rw [hm']

theorem kernel_gt32_formula (BlkLen BCK CountM CountN : Nat)
    (aS : Nat → ℚ) (aB : Nat → ℤ) (bB : Nat → Nat) (bS : Nat → ℚ)
    (bZ : Nat → Nat) (bias : Option (Nat → ℚ)) (m n : Nat)
    (hdvd : 64 ∣ BlkLen) (hm : m < CountM) (hn : n < CountN) :
    SQ4BitGemmKernel_CompInt8_BlkLenGreaterThan32 BlkLen BCK CountM CountN false
        aS aB bB bS bZ bias m n
      = refInt8 BlkLen BCK false aS aB bB bS bZ (m * (BCK * q8BlkSize BlkLen))
          (n * (BCK * blkDataSize BlkLen)) (n * BCK) (n * zpBytesSize BCK)
        + biasVal bias n := by
  have hdvd32 : 32 ∣ BlkLen := dvd_trans (by norm_num) hdvd
  unfold SQ4BitGemmKernel_CompInt8_BlkLenGreaterThan32
  by_cases hm2 : m < 2 * (CountM / 2)
  · rw [if_pos hm2]
    by_cases hn2 : n < 2 * (CountN / 2)
    · rw [if_pos hn2, c2x2_gt16_eq _ _ _ _ _ _ _ _ _ _ _ _ _ _ _ _ _ _ _ _ hdvd32]
      have hA : 2 * (m / 2) * (BCK * q8BlkSize BlkLen)
            + m % 2 * (BCK * q8BlkSize BlkLen)
          = m * (BCK * q8BlkSize BlkLen) := by
        rw [← Nat.add_mul]
        congr 1
        omega
      have hB : 2 * (n / 2) * (BCK * blkDataSize BlkLen)
            + n % 2 * (BCK * blkDataSize BlkLen)
          = n * (BCK * blkDataSize BlkLen) := by
        rw [← Nat.add_mul]
        congr 1
        omega
      have hS : 2 * (n / 2) * BCK + n % 2 * BCK = n * BCK := by
        rw [← Nat.add_mul]
        congr 1
        omega
      have hZ : 2 * (n / 2) * zpBytesSize BCK + n % 2 * zpBytesSize BCK
          = n * zpBytesSize BCK := by
        rw [← Nat.add_mul]
        congr 1
        omega
      have hbias : 2 * (n / 2) + n % 2 = n := by omega
      rw [hA, hB, hS, hZ, hbias]
    · rw [if_neg hn2, c1x1_gt32_eq _ _ _ _ _ _ _ _ _ _ _ _ _ hdvd]
      have hn' : 2 * (CountN / 2) = n := by omega
      have hA : 2 * (m / 2) * (BCK * q8BlkSize BlkLen)
            + m % 2 * (BCK * q8BlkSize BlkLen)
          = m * (BCK * q8BlkSize BlkLen) := by
        rw [← Nat.add_mul]
        congr 1
        omega
      rw [hn', hA]
  · rw [if_neg hm2, c1x1_gt32_eq _ _ _ _ _ _ _ _ _ _ _ _ _ hdvd]
    have hm' : 2 * (CountM / 2) = m := by omega
    rw [hm']

/-- C2 (amended). For `BlkLen = 16`, `BlkLen = 32` (with or without zero
points), and for `BlkLen` a positive multiple of 64 without zero points,
every output element of `SQ4BitGemmKernel_CompInt8` — whether produced by a
2x2 micro-tile or by a remainder 2x1 / 1x1 tile — equals the sum over K
blocks of the combined per-block scale times the int32 integer dot product
of the A block's int8 codes with B's 4-bit codes widened and
zero-point-subtracted to signed int8, converted to rational, plus `Bias[n]`
when the bias pointer is non-null. -/
theorem kernel_int8_formula (BlkLen BCK CountM CountN : Nat) (hzp : Bool)
    (aS : Nat → ℚ) (aB : Nat → ℤ) (bB : Nat → Nat) (bS : Nat → ℚ)
    (bZ : Nat → Nat) (bias : Option (Nat → ℚ)) (m n : Nat)
    (hgood : BlkLen = 16 ∨ BlkLen = 32 ∨ (64 ∣ BlkLen ∧ 0 < BlkLen ∧ hzp = false))
    (hm : m < CountM) (hn : n < CountN) :
    (SQ4BitGemmKernel_CompInt8 BlkLen aS aB bB bS bZ hzp CountM CountN BCK
        bias).1 m n
      = refInt8 BlkLen BCK hzp aS aB bB bS bZ (m * (BCK * q8BlkSize BlkLen))
          (n * (BCK * blkDataSize BlkLen)) (n * BCK) (n * zpBytesSize BCK)
        + biasVal bias n := by
  show SQ4BitGemmKernel_CompInt8_DispatchOnBlkLen BlkLen BCK CountM CountN hzp
      aS aB bB bS bZ bias m n = _
  unfold SQ4BitGemmKernel_CompInt8_DispatchOnBlkLen
  rcases hgood with h | h | ⟨h64, hposB, hz⟩
  · subst h
    rw [if_pos rfl]
    exact kernel_b16_formula BCK CountM CountN hzp aS aB bB bS bZ bias m n hm hn
  · subst h
    rw [if_neg (by norm_num), if_pos rfl]
    exact kernel_b32_formula BCK CountM CountN hzp aS aB bB bS bZ bias m n hm hn
  · subst hz
    rw [if_neg (by rintro rfl; omega), if_neg (by rintro rfl; omega)]
    exact kernel_gt32_formula BlkLen BCK CountM CountN aS aB bB bS bZ bias m n
      h64 hm hn

theorem sub_biasVal (X : ℚ) (f : Nat → ℚ) (i : Nat) :
    (X + biasVal (some f) i) - (X + biasVal none i) = f i := by
  simp [biasVal]

/-- C8 (float mode). With a non-null bias pointer the value stored at
`C[n]` exceeds the no-bias value by exactly `Bias[n]`: the bias is added
once, after the full K reduction, and only when the pointer is non-null. -/
theorem bias_added_once_fp32 (BlkLen : Nat) (A : Nat → ℚ) (bB : Nat → Nat)
    (bS : Nat → ℚ) (bZ : Nat → Nat) (hzp : Bool)
    (CountN CountK BlockCountK : Nat) (f : Nat → ℚ) (n : Nat)
    (hn : n < CountN) :
    SQ4BitGemmM1Kernel_CompFp32 BlkLen A bB bS bZ hzp CountN CountK BlockCountK
        (some f) n
      - SQ4BitGemmM1Kernel_CompFp32 BlkLen A bB bS bZ hzp CountN CountK
          BlockCountK none n
      = f n := by
  unfold SQ4BitGemmM1Kernel_CompFp32
  by_cases ht : n < 4 * (CountN / 4)
  · rw [if_pos ht, if_pos ht]
    unfold computeDotProductFp32
    rw [show 4 * (n / 4) + n % 4 = n from by omega]
    exact sub_biasVal _ f _
  · rw [if_neg ht, if_neg ht]
    unfold computeDotProductFp32
    rw [show n + 0 = n from by omega]
    exact sub_biasVal _ f _

/-- C8 (int8 mode). Every output element of every tile shape (2x2, 2x1,
1x1) and every `BlkLen` variant receives exactly `Bias[n]` on top of the
no-bias value. -/
theorem bias_added_once_int8 (BlkLen : Nat) (aS : Nat → ℚ) (aB : Nat → ℤ)
    (bB : Nat → Nat) (bS : Nat → ℚ) (bZ : Nat → Nat) (hzp : Bool)
    (CountM CountN BCK : Nat) (f : Nat → ℚ) (m n : Nat)
    (hm : m < CountM) (hn : n < CountN) :
    (SQ4BitGemmKernel_CompInt8 BlkLen aS aB bB bS bZ hzp CountM CountN BCK
        (some f)).1 m n
      - (SQ4BitGemmKernel_CompInt8 BlkLen aS aB bB bS bZ hzp CountM CountN BCK
          none).1 m n
      = f n := by
  show SQ4BitGemmKernel_CompInt8_DispatchOnBlkLen BlkLen BCK CountM CountN hzp
        aS aB bB bS bZ (some f) m n
      - SQ4BitGemmKernel_CompInt8_DispatchOnBlkLen BlkLen BCK CountM CountN hzp
        aS aB bB bS bZ none m n
      = f n
  unfold SQ4BitGemmKernel_CompInt8_DispatchOnBlkLen
  by_cases h16 : BlkLen = 16
  · rw [if_pos h16, if_pos h16]
    unfold SQ4BitGemmKernel_CompInt8_BlkLen16
    by_cases hm2 : m < 2 * (CountM / 2)
    · rw [if_pos hm2, if_pos hm2]
      by_cases hn2 : n < 2 * (CountN / 2)
      · rw [if_pos hn2, if_pos hn2]
        unfold SQ4BitGemm_CompInt8_Compute2x2_BlkLen16
        rw [show 2 * (n / 2) + n % 2 = n from by omega]
        exact sub_biasVal _ f _
      · rw [if_neg hn2, if_neg hn2]
        unfold SQ4BitGemm_CompInt8_Compute1x1_BlkLen16
        rw [show 2 * (CountN / 2) = n from by omega]
        exact sub_biasVal _ f _
    · rw [if_neg hm2, if_neg hm2]
      unfold SQ4BitGemm_CompInt8_Compute1x1_BlkLen16
      exact sub_biasVal _ f _
  · rw [if_neg h16, if_neg h16]
    by_cases h32 : BlkLen = 32
    · rw [if_pos h32, if_pos h32]
      unfold SQ4BitGemmKernel_CompInt8_BlkLen32
      by_cases hm2 : m < 2 * (CountM / 2)
      · rw [if_pos hm2, if_pos hm2]
        by_cases hn2 : n < 2 * (CountN / 2)
        · rw [if_pos hn2, if_pos hn2]
          unfold SQ4BitGemm_CompInt8_Compute2x2_BlkLenGreaterThan16
          rw [show 2 * (n / 2) + n % 2 = n from by omega]
          exact sub_biasVal _ f _
        · rw [if_neg hn2, if_neg hn2]
          unfold SQ4BitGemm_CompInt8_Compute1x1_BlkLen32
          rw [show 2 * (CountN / 2) = n from by omega]
          exact sub_biasVal _ f _
      · rw [if_neg hm2, if_neg hm2]
        unfold SQ4BitGemm_CompInt8_Compute1x1_BlkLen32
        exact sub_biasVal _ f _
    · rw [if_neg h32, if_neg h32]
      unfold SQ4BitGemmKernel_CompInt8_BlkLenGreaterThan32
      by_cases hm2 : m < 2 * (CountM / 2)
      · rw [if_pos hm2, if_pos hm2]
        by_cases hn2 : n < 2 * (CountN / 2)
        · rw [if_pos hn2, if_pos hn2]
          unfold SQ4BitGemm_CompInt8_Compute2x2_BlkLenGreaterThan16
          rw [show 2 * (n / 2) + n % 2 = n from by omega]
          exact sub_biasVal _ f _
        · rw [if_neg hn2, if_neg hn2]
          unfold SQ4BitGemm_CompInt8_Compute1x1_BlkLenGreaterThan32
          rw [show 2 * (CountN / 2) = n from by omega]
          exact sub_biasVal _ f _
      · rw [if_neg hm2, if_neg hm2]
        unfold SQ4BitGemm_CompInt8_Compute1x1_BlkLenGreaterThan32
        exact sub_biasVal _ f _

/-- C8. In both compute modes the bias is added exactly once per output
element, after the full K reduction, and only when the bias pointer is
non-null: subtracting the no-bias result leaves exactly the broadcast
bias. -/
theorem bias_added_once (BlkLen : Nat) (A : Nat → ℚ) (aS : Nat → ℚ)
    (aB : Nat → ℤ) (bB : Nat → Nat) (bS : Nat → ℚ) (bZ : Nat → Nat)
    (hzp : Bool) (CountM CountN CountK BlockCountK : Nat) (f : Nat → ℚ)
    (m n : Nat) (hm : m < CountM) (hn : n < CountN) :
    (SQ4BitGemmM1Kernel_CompFp32 BlkLen A bB bS bZ hzp CountN CountK
          BlockCountK (some f) n
        - SQ4BitGemmM1Kernel_CompFp32 BlkLen A bB bS bZ hzp CountN CountK
            BlockCountK none n
        = f n)
    ∧ ((SQ4BitGemmKernel_CompInt8 BlkLen aS aB bB bS bZ hzp CountM CountN
          BlockCountK (some f)).1 m n
        - (SQ4BitGemmKernel_CompInt8 BlkLen aS aB bB bS bZ hzp CountM CountN
            BlockCountK none).1 m n
        = f n) :=
  ⟨bias_added_once_fp32 BlkLen A bB bS bZ hzp CountN CountK BlockCountK f n hn,
   bias_added_once_int8 BlkLen aS aB bB bS bZ hzp CountM CountN BlockCountK
     f m n hm hn⟩

/-- Witness for C8 at a concrete configuration. -/
theorem bias_added_once_witness :
    SQ4BitGemmM1Kernel_CompFp32 16 (fun _ => 1) (fun _ => 17) (fun _ => 1)
          (fun _ => 0) false 1 4 1 (some (fun _ => 5)) 0
        - SQ4BitGemmM1Kernel_CompFp32 16 (fun _ => 1) (fun _ => 17) (fun _ => 1)
            (fun _ => 0) false 1 4 1 none 0
        = 5
    ∧ (SQ4BitGemmKernel_CompInt8 16 (fun _ => 1) (fun _ => 1) (fun _ => 17)
          (fun _ => 1) (fun _ => 0) false 1 1 1 (some (fun _ => 5))).1 0 0
        - (SQ4BitGemmKernel_CompInt8 16 (fun _ => 1) (fun _ => 1) (fun _ => 17)
            (fun _ => 1) (fun _ => 0) false 1 1 1 none).1 0 0
        = 5 :=
  bias_added_once 16 (fun _ => 1) (fun _ => 1) (fun _ => 1) (fun _ => 17)
    (fun _ => 1) (fun _ => 0) false 1 1 4 1 (fun _ => 5) 0 0
    (by norm_num) (by norm_num)

/-- C10. `SQ4BitGemmKernel_CompInt8` always returns `CountM`, the full
number of rows requested, for every combination of arguments. -/
theorem kernel_int8_returns_countM (BlkLen : Nat) (aS : Nat → ℚ)
    (aB : Nat → ℤ) (bB : Nat → Nat) (bS : Nat → ℚ) (bZ : Nat → Nat)
    (hzp : Bool) (CountM CountN BlockCountK : Nat)
    (bias : Option (Nat → ℚ)) :
    (SQ4BitGemmKernel_CompInt8 BlkLen aS aB bB bS bZ hzp CountM CountN
        BlockCountK bias).2 = CountM := rfl

/-- Witness for C2 at `BlkLen = 16`, one block, one output element. -/
theorem kernel_int8_witness :
    (SQ4BitGemmKernel_CompInt8 16 (fun _ => 1) (fun _ => 1) (fun _ => 17)
        (fun _ => 1) (fun _ => 0) false 1 1 1 none).1 0 0
      = refInt8 16 1 false (fun _ => 1) (fun _ => 1) (fun _ => 17) (fun _ => 1)
          (fun _ => 0) (0 * (1 * q8BlkSize 16)) (0 * (1 * blkDataSize 16))
          (0 * 1) (0 * zpBytesSize 1)
        + biasVal none 0 :=
  kernel_int8_formula 16 1 1 1 false (fun _ => 1) (fun _ => 1) (fun _ => 17)
    (fun _ => 1) (fun _ => 0) none 0 0 (Or.inl rfl) (by norm_num) (by norm_num)

/-- Counterexample to C2 as stated.  First conjunct: at `BlkLen = 96` (a
multiple of 32 larger than 32, hence "supported" by the claim's own
parenthetical) with all A codes `1` and all packed B bytes `0x11`, the 1x1
kernel computes `-896` (its sub-block loop steps by two 32-wide
sub-blocks per iteration and therefore reads 128 logical positions for a
96-long block) while the claimed per-element formula gives `-672`.  Second
conjunct: at `BlkLen = 64` with zero points (zero-point byte `0xA3`), the
1x1 kernel applies the low nibble to the odd block as well, computing
`-256` instead of the claimed `-704`. -/
theorem kernel_int8_counterexample :
    ¬ ((SQ4BitGemmKernel_CompInt8 96 (fun _ => 1) (fun _ => 1) (fun _ => 17)
          (fun _ => 1) (fun _ => 0) false 1 1 1 none).1 0 0
        = refInt8 96 1 false (fun _ => 1) (fun _ => 1) (fun _ => 17)
            (fun _ => 1) (fun _ => 0) 0 0 0 0
          + biasVal none 0)
    ∧ ¬ ((SQ4BitGemmKernel_CompInt8 64 (fun _ => 1) (fun _ => 1) (fun _ => 17)
          (fun _ => 1) (fun _ => 163) true 1 1 2 none).1 0 0
        = refInt8 64 2 true (fun _ => 1) (fun _ => 1) (fun _ => 17)
            (fun _ => 1) (fun _ => 163) 0 0 0 0
          + biasVal none 0) := by
  constructor <;>
  · norm_num [SQ4BitGemmKernel_CompInt8,
      SQ4BitGemmKernel_CompInt8_DispatchOnBlkLen,
      SQ4BitGemmKernel_CompInt8_BlkLenGreaterThan32,
      SQ4BitGemm_CompInt8_Compute1x1_BlkLenGreaterThan32, refInt8,
      int8PackedNib, subBlkNib, dotB32, dotLo16, dotHi16, nibLo, nibHi,
      zpNib, divRoundup, q8BlkSize, blkDataSize, zpBytesSize, biasVal,
      Finset.sum_range_succ, Finset.sum_range_zero]

/-- C3 failing input: `SQ4BitGemm_CompInt8_Compute1x1_BlkLenGreaterThan32`
applies the low nibble of zero-point byte `blk / 2` to every block.  With
`BlkLen = 64`, two K blocks, zero-point byte `0xA3 = 163` (low nibble 3,
high nibble 10), all A codes `1` and all B codes `1`: the variant computes
`-256` (zero point 3 applied to both blocks), whereas the packed zero-point
convention — followed by every other variant and stated by the claim —
assigns zero point 10 to block 1, giving `-704`. -/
theorem zp_oddblock_1x1_gt32_bug :
    SQ4BitGemm_CompInt8_Compute1x1_BlkLenGreaterThan32 64 2 true (fun _ => 1)
        (fun _ => 1) (fun _ => 17) (fun _ => 1) (fun _ => 163) 0 0 0 0 none 0
      = -256
    ∧ refInt8 64 2 true (fun _ => 1) (fun _ => 1) (fun _ => 17) (fun _ => 1)
        (fun _ => 163) 0 0 0 0 = -704
    ∧ zpNib (fun _ => 163) 1 = 10 ∧ nibLo 163 = 3 := by
  refine ⟨?_, ?_, by norm_num [zpNib, nibHi], by norm_num [nibLo]⟩ <;>
  · norm_num [SQ4BitGemm_CompInt8_Compute1x1_BlkLenGreaterThan32, refInt8,
      int8PackedNib, subBlkNib, dotB32, dotLo16, dotHi16, nibLo, nibHi,
      zpNib, divRoundup, q8BlkSize, blkDataSize, zpBytesSize, biasVal,
      Finset.sum_range_succ, Finset.sum_range_zero]

end SQNBitGemmNeon
